import Mathlib

/-!
# CodeAnimator / TestingScripts: `arrayInfo.cpp`

A shallow embedding of the console program `arrayInfo.cpp` and the properties
its specification states about it.

Modelling conventions

* `int` values are `Int`.  The program only compares the values it has read
  and never does arithmetic on them, so every property below holds in
  particular for values in the 32-bit range.
* Standard input is the list of well-formed integers still to be extracted
  (the program does not say what it does on other text).  An extraction from
  an exhausted stream fails and leaves its target untouched.
* The local array `int integers[40]` is a map from index to cell content.  It
  is not initialised by the program, so its initial content `stack` is a
  parameter of `main`.
* The global `int maxIteration` is passed explicitly to the three predicates.
  It only ever holds a loop index, hence a `Nat`.
* A C++ loop is a step function run by `runLoop` under a fuel bound; running
  out of fuel is `none`, and the entry points are shown to never run out.
* The unused local `bool special` is omitted.
* Memory accesses are recorded by `loopTrace`, which runs the same step functions
  as `runLoop` and lists, pass by pass, the cells and the global each pass
  assigns or reads.
-/

namespace ArrayInfo

/-! ## Loops -/

/-- Outcome of one pass through a loop head: go round again with a new loop state, or
leave the loop (guard false, `break`, or `return`) with a result. -/
inductive Step (σ ρ : Type) where
  | next (s : σ) : Step σ ρ
  | leave (r : ρ) : Step σ ρ

/-- Run a loop from state `s` for at most `fuel` passes. -/
def runLoop {σ ρ : Type} (step : σ → Step σ ρ) : Nat → σ → Option ρ
  | 0, _ => none
  | fuel + 1, s =>
    match step s with
    | Step.next s' => runLoop step fuel s'
    | Step.leave r => some r

/-- Loop state reached after exactly `k` passes that all went round again, if the loop is
still running then. -/
def stateAfter {σ ρ : Type} (step : σ → Step σ ρ) : Nat → σ → Option σ
  | 0, s => some s
  | k + 1, s =>
    match step s with
    | Step.next s' => stateAfter step k s'
    | Step.leave _ => none

/-! ## Program state -/

/-- The array `int integers[40]`, by index. -/
abbrev Buffer := Nat → Int

/-- Assignment `integers[i] = v`. -/
def Buffer.write (integers : Buffer) (i : Nat) (v : Int) : Buffer :=
  fun j => if j = i then v else integers j

/-- The variables of `main` during the read phase, with what is left on standard input. -/
structure State where
  integers : Buffer
  maxIteration : Nat
  cin : List Int

/-- Statement `cin >> integers[i]`: extract the next integer into cell `i`; on an exhausted
stream the extraction fails and the cell keeps its content. -/
def extract (i : Nat) (s : State) : State :=
  match s.cin with
  | [] => s
  | v :: rest => { s with integers := s.integers.write i v, cin := rest }

/-- One pass of `for (int i = 0; i < 40; i++) { cin >> integers[i]; maxIteration = i;
if (integers[i] == -1) break; }`. -/
def readStep (p : Nat × State) : Step (Nat × State) State :=
  let i := p.1
  if i < 40 then
    let s := { extract i p.2 with maxIteration := i }
    if s.integers i = -1 then Step.leave s
    else Step.next (i + 1, s)
  else Step.leave p.2

/-- The read phase of `main`: the loop started at `i = 0`. -/
def readPhase (cin : List Int) (stack : Buffer) : Option State :=
  runLoop readStep 41 (0, { integers := stack, maxIteration := 0, cin := cin })

/-! ## The three predicates -/

/-- One pass of the loop of `Descending`; the loop state is `(i, current_min)`. -/
def descendingStep (integers : Buffer) (maxIteration : Nat) (p : Nat × Int) :
    Step (Nat × Int) Bool :=
  let i := p.1
  let current_min := p.2
  if i < maxIteration then
    if integers i > current_min then Step.leave false
    else Step.next (i + 1, integers i)
  else Step.leave true

/-- The function `bool Descending(int integers[])`. -/
def Descending (integers : Buffer) (maxIteration : Nat) : Option Bool :=
  runLoop (descendingStep integers maxIteration) (maxIteration + 1) (0, integers 0)

/-- One pass of the loop of `Ascending`; the loop state is `(i, current_max)`. -/
def ascendingStep (integers : Buffer) (maxIteration : Nat) (p : Nat × Int) :
    Step (Nat × Int) Bool :=
  let i := p.1
  let current_max := p.2
  if i < maxIteration then
    if integers i < current_max then Step.leave false
    else Step.next (i + 1, integers i)
  else Step.leave true

/-- The function `bool Ascending(int integers[])`. -/
def Ascending (integers : Buffer) (maxIteration : Nat) : Option Bool :=
  runLoop (ascendingStep integers maxIteration) (maxIteration + 1) (0, integers 0)

/-- One pass of the loop of `SameOrder`; the loop state is `i`.  Under the guard
`i < maxIteration` the index `maxIteration - (1 + i)` is not negative, so truncated
subtraction computes it exactly. -/
def sameOrderStep (integers : Buffer) (maxIteration : Nat) (i : Nat) : Step Nat Bool :=
  if i < maxIteration then
    if integers i ≠ integers (maxIteration - (1 + i)) then Step.leave false
    else Step.next (i + 1)
  else Step.leave true

/-- The function `bool SameOrder(int integers[])`. -/
def SameOrder (integers : Buffer) (maxIteration : Nat) : Option Bool :=
  runLoop (sameOrderStep integers maxIteration) (maxIteration + 1) 0

/-! ## `main` -/

/-- What a run leaves behind: the text written to standard output and the exit code. -/
structure Run where
  stdout : String
  exitCode : Int
  deriving DecidableEq

def prompt : String := "Enter the Values: "
def descendingMsg : String := "The integers are in descending order."
def ascendingMsg : String := "The integers are in ascending order."
def sameOrderMsg : String :=
  "The integers are in the same order when read backward and forwards."
def fallbackMsg : String := "I do not see anything special about these values."

/-- A run that prints the prompt, then `msg << endl`, then executes `return 0`. -/
def report (msg : String) : Run :=
  { stdout := prompt ++ msg ++ "\n", exitCode := 0 }

/-- The tail of `main` after the read phase: the three tests in their order. -/
def classify (s : State) : Option Run :=
  match Descending s.integers s.maxIteration with
  | none => none
  | some true => some (report descendingMsg)
  | some false =>
    match Ascending s.integers s.maxIteration with
    | none => none
    | some true => some (report ascendingMsg)
    | some false =>
      match SameOrder s.integers s.maxIteration with
      | none => none
      | some true => some (report sameOrderMsg)
      | some false => some (report fallbackMsg)

/-- The function `int main()` of `arrayInfo.cpp`, run on standard input `cin` with the array
initially holding `stack`. -/
def main (cin : List Int) (stack : Buffer) : Option Run :=
  match readPhase cin stack with
  | none => none
  | some s => classify s

/-! ## What the predicates compute -/

/-- The first `n` cells are non-increasing: each cell after the first is at most the one
before it. -/
def NonIncreasing (integers : Buffer) (n : Nat) : Prop :=
  ∀ i < n, 1 ≤ i → integers i ≤ integers (i - 1)

instance (integers : Buffer) (n : Nat) : Decidable (NonIncreasing integers n) := by
  unfold NonIncreasing; infer_instance

/-- The first `n` cells are non-decreasing: each cell after the first is at least the one
before it. -/
def NonDecreasing (integers : Buffer) (n : Nat) : Prop :=
  ∀ i < n, 1 ≤ i → integers (i - 1) ≤ integers i

instance (integers : Buffer) (n : Nat) : Decidable (NonDecreasing integers n) := by
  unfold NonDecreasing; infer_instance

/-- The first `n` cells read the same backward and forward. -/
def Palindrome (integers : Buffer) (n : Nat) : Prop :=
  ∀ i < n, integers i = integers (n - 1 - i)

instance (integers : Buffer) (n : Nat) : Decidable (Palindrome integers n) := by
  unfold Palindrome; infer_instance


/-- The buffer whose leading cells hold the values `vals`, in order. -/
def cells (vals : List Int) : Buffer :=
  fun i => vals.getD i 0

/-- The message `main` prints for a buffer and a value of `maxIteration`, told from the
three properties rather than from the loops. -/
def verdict (integers : Buffer) (n : Nat) : String :=
  if NonIncreasing integers n then descendingMsg
  else if NonDecreasing integers n then ascendingMsg
  else if Palindrome integers n then sameOrderMsg
  else fallbackMsg

/-- The running minimum in front of index `i`: the least of the cells at indices below `i`
(for `i = 0`, where there is none, the value `integers[0]` that `current_min` starts
with). -/
def runningMin (integers : Buffer) : Nat → Int
  | 0 => integers 0
  | i + 1 => min (runningMin integers i) (integers i)

/-- The buffer with its first `n` cells in reverse order and the other cells unchanged. -/
def reverseFirst (integers : Buffer) (n : Nat) : Buffer :=
  fun i => if i < n then integers (n - 1 - i) else integers i

/-- Forty values without a sentinel: `40, 39, ..., 2` and then `100`. -/
def descendingThenUp : List Int :=
  [40, 39, 38, 37, 36, 35, 34, 33, 32, 31, 30, 29, 28, 27, 26, 25, 24, 23, 22, 21,
   20, 19, 18, 17, 16, 15, 14, 13, 12, 11, 10, 9, 8, 7, 6, 5, 4, 3, 2, 100]

/-- Forty values without a sentinel: `1, 2, ..., 39` and then `0`. -/
def ascendingThenDown : List Int :=
  [1, 2, 3, 4, 5, 6, 7, 8, 9, 10, 11, 12, 13, 14, 15, 16, 17, 18, 19, 20,
   21, 22, 23, 24, 25, 26, 27, 28, 29, 30, 31, 32, 33, 34, 35, 36, 37, 38, 39, 0]

/-- Forty values without a sentinel, all equal to `7`. -/
def fortySevens : List Int :=
  List.replicate 40 7

/-- Forty values whose first is the sentinel: `-1`, thirty-eight zeros, and then `1`. -/
def sentinelFirstThenOne : List Int :=
  -1 :: List.replicate 38 0 ++ [1]

/-- Forty values whose first is the sentinel: `-1`, thirty-eight zeros, and then `2`. -/
def sentinelFirstThenTwo : List Int :=
  -1 :: List.replicate 38 0 ++ [2]

/-! ## Memory accesses -/

/-- An access to the memory the functions share: an assignment to or a read of a cell of
`integers`, an assignment to or a read of the global `maxIteration`. -/
inductive Access where
  | write (i : Nat) : Access
  | read (i : Nat) : Access
  | setMax : Access
  | getMax : Access
  deriving DecidableEq

/-- The accesses of a loop run from state `s` for at most `fuel` passes, in order, where
`events s` lists the accesses of the pass that starts in state `s`. -/
def loopTrace {σ ρ ε : Type} (step : σ → Step σ ρ) (events : σ → List ε) : Nat → σ → List ε
  | 0, _ => []
  | fuel + 1, s =>
    events s ++
      match step s with
      | Step.next s' => loopTrace step events fuel s'
      | Step.leave _ => []

/-- Accesses of one pass of the read loop: a successful `cin >> integers[i]` assigns cell
`i`, then `maxIteration = i`, then `integers[i] == -1` reads cell `i`. -/
def readEvents (p : Nat × State) : List Access :=
  let i := p.1
  if i < 40 then
    (match p.2.cin with
      | [] => []
      | _ :: _ => [Access.write i]) ++ [Access.setMax, Access.read i]
  else []

/-- Accesses of the read phase of `main`. -/
def readTrace (cin : List Int) (stack : Buffer) : List Access :=
  loopTrace readStep readEvents 41 (0, { integers := stack, maxIteration := 0, cin := cin })

/-- Accesses of one pass of the loop of `Descending`: the guard reads `maxIteration`, the
comparison reads `integers[i]`, and so does the assignment to `current_min`. -/
def descendingEvents (integers : Buffer) (maxIteration : Nat) (p : Nat × Int) : List Access :=
  let i := p.1
  let current_min := p.2
  Access.getMax ::
    if i < maxIteration then
      if integers i > current_min then [Access.read i]
      else [Access.read i, Access.read i]
    else []

/-- Accesses of the loop of `Descending`. -/
def DescendingLoopTrace (integers : Buffer) (maxIteration : Nat) : List Access :=
  loopTrace (descendingStep integers maxIteration) (descendingEvents integers maxIteration)
    (maxIteration + 1) (0, integers 0)

/-- Accesses of a call of `Descending`: `current_min = integers[0]`, then the loop. -/
def DescendingTrace (integers : Buffer) (maxIteration : Nat) : List Access :=
  Access.read 0 :: DescendingLoopTrace integers maxIteration

/-- Accesses of one pass of the loop of `Ascending`. -/
def ascendingEvents (integers : Buffer) (maxIteration : Nat) (p : Nat × Int) : List Access :=
  let i := p.1
  let current_max := p.2
  Access.getMax ::
    if i < maxIteration then
      if integers i < current_max then [Access.read i]
      else [Access.read i, Access.read i]
    else []

/-- Accesses of the loop of `Ascending`. -/
def AscendingLoopTrace (integers : Buffer) (maxIteration : Nat) : List Access :=
  loopTrace (ascendingStep integers maxIteration) (ascendingEvents integers maxIteration)
    (maxIteration + 1) (0, integers 0)

/-- Accesses of a call of `Ascending`: `current_max = integers[0]`, then the loop. -/
def AscendingTrace (integers : Buffer) (maxIteration : Nat) : List Access :=
  Access.read 0 :: AscendingLoopTrace integers maxIteration

/-- Accesses of one pass of the loop of `SameOrder`: the guard reads `maxIteration`, and the
comparison reads `integers[i]`, `maxIteration` and `integers[maxIteration - (1 + i)]`. -/
def sameOrderEvents (maxIteration : Nat) (i : Nat) : List Access :=
  Access.getMax ::
    if i < maxIteration then
      [Access.read i, Access.getMax, Access.read (maxIteration - (1 + i))]
    else []

/-- Accesses of a call of `SameOrder`. -/
def SameOrderTrace (integers : Buffer) (maxIteration : Nat) : List Access :=
  loopTrace (sameOrderStep integers maxIteration) (sameOrderEvents maxIteration)
    (maxIteration + 1) 0

/-- Accesses of the tail of `main` after the read phase: `Descending` is called, `Ascending`
only if that returned false, `SameOrder` only if both returned false. -/
def classifyTrace (s : State) : List Access :=
  DescendingTrace s.integers s.maxIteration ++
    match Descending s.integers s.maxIteration with
    | some false =>
      AscendingTrace s.integers s.maxIteration ++
        match Ascending s.integers s.maxIteration with
        | some false => SameOrderTrace s.integers s.maxIteration
        | _ => []
    | _ => []

/-- Accesses of a run of `main`. -/
def mainTrace (cin : List Int) (stack : Buffer) : List Access :=
  readTrace cin stack ++
    match readPhase cin stack with
    | none => []
    | some s => classifyTrace s

/-- Every read of a cell in the trace is of an index in `0..39` and comes after an
assignment to that cell. -/
def ReadsWritten (t : List Access) : Prop :=
  ∀ pre j post, t = pre ++ Access.read j :: post → j ≤ 39 ∧ Access.write j ∈ pre

/-- Every read of `maxIteration` in the trace comes after an assignment to it. -/
def MaxSetFirst (t : List Access) : Prop :=
  ∀ pre post, t = pre ++ Access.getMax :: post → Access.setMax ∈ pre

/-- The input supplies every integer the read loop asks for: it holds a `-1`, or at least
40 values. -/
def Supplies (cin : List Int) : Prop :=
  -1 ∈ cin ∨ 40 ≤ cin.length

/-- The accesses of `len` passes of the read loop, from pass `i` on, when every extraction
succeeds. -/
def readPasses (i : Nat) : Nat → List Access
  | 0 => []
  | len + 1 => [Access.write i, Access.setMax, Access.read i] ++ readPasses (i + 1) len

end ArrayInfo

/-!
# CodeAnimator / TestingScripts: `notFibonacci.cpp`

The program reads two `int`s and prints ten terms of the additive sequence they seed.
Its sum `a + b` is taken as a parameter `add`, so that the same embedding runs over exact
integers (`addExact`) and with 32-bit wraparound (`addInt32`).  A failed extraction leaves
its target untouched, so the initial contents `a₀`, `b₀` of the uninitialised `a` and `b`
are parameters of the run.
-/

namespace NotFibonacci

open ArrayInfo (Step runLoop)

/-- An operand of `<<` on `cout`: a string literal or an `int`. -/
inductive Item where
  | text (s : String) : Item
  | num (n : Int) : Item

/-- The characters `<<` writes for an operand; an `int` is written in decimal, with a
leading minus sign when negative. -/
def Item.render : Item → String
  | Item.text s => s
  | Item.num n => toString n

/-- The variables of `main`, with what is left on standard input and what has been passed
to `cout` so far. -/
structure State where
  a : Int
  b : Int
  current : Int
  cin : List Int
  cout : List Item

/-- The sum of two `int`s over exact integers (no overflow). -/
def addExact (x y : Int) : Int := x + y

/-- The 32-bit signed integer congruent to `x` modulo `2^32`. -/
def wrap32 (x : Int) : Int := (x + 2 ^ 31) % 2 ^ 32 - 2 ^ 31

/-- The sum of two `int`s with 32-bit wraparound. -/
def addInt32 (x y : Int) : Int := wrap32 (x + y)

/-- Statement `cin >> a`. -/
def extractA (s : State) : State :=
  match s.cin with
  | [] => s
  | v :: rest => { s with a := v, cin := rest }

/-- Statement `cin >> b`. -/
def extractB (s : State) : State :=
  match s.cin with
  | [] => s
  | v :: rest => { s with b := v, cin := rest }

/-- Statement `cout << ...` with the operands `items`, in order. -/
def put (items : List Item) (s : State) : State :=
  { s with cout := s.cout ++ items }

/-- One pass of `for (int i = 0; i < 8; i++) { current = a + b; a = b; b = current;
cout << ", " << current; }`, with `add` for the `+` of `int`. -/
def loopStep (add : Int → Int → Int) (p : Nat × State) : Step (Nat × State) State :=
  let i := p.1
  let s := p.2
  if i < 8 then
    let s1 := { s with current := add s.a s.b }
    let s2 := { s1 with a := s1.b }
    let s3 := { s2 with b := s2.current }
    Step.next (i + 1, put [Item.text ", ", Item.num s3.current] s3)
  else Step.leave s

/-- What a run leaves behind: the operands passed to `cout`, in order, and the exit code. -/
structure Run where
  cout : List Item
  exitCode : Int

/-- The text on standard output. -/
def Run.stdout (r : Run) : String :=
  String.join (r.cout.map Item.render)

/-- The integers printed, in order. -/
def Run.terms (r : Run) : List Int :=
  r.cout.filterMap fun
    | Item.num n => some n
    | Item.text _ => none

/-- The state of `main` when it reaches the loop: greeting and prompts written, `a` and `b`
extracted, and the two seeds printed with `cout << a << ", " << b`. -/
def start (cin : List Int) (a₀ b₀ : Int) : State :=
  let s0 : State := { a := a₀, b := b₀, current := 0, cin := cin, cout := [] }
  let s1 := put [Item.text "Here is a sequence that is close to Fibonacci. ", Item.text "\n"] s0
  let s2 := extractA (put [Item.text "Enter a: "] s1)
  let s3 := extractB (put [Item.text "Enter b: "] s2)
  put [Item.num s3.a, Item.text ", ", Item.num s3.b] s3

/-- The function `int main()` of `notFibonacci.cpp`, with `add` for the `+` of `int`, run on
standard input `cin` with `a` and `b` initially holding `a₀` and `b₀`. -/
def mainWith (add : Int → Int → Int) (cin : List Int) (a₀ b₀ : Int) : Option Run :=
  match runLoop (loopStep add) 9 (0, start cin a₀ b₀) with
  | none => none
  | some s => some { cout := s.cout, exitCode := 0 }

/-- The ten values the loop computes from the seeds `a` and `b` with the sum `add`. -/
def sequence (add : Int → Int → Int) (a b : Int) : Nat → Int
  | 0 => a
  | 1 => b
  | k + 2 => add (sequence add a b k) (sequence add a b (k + 1))

/-- The text in front of the sequence: the greeting with its `endl` and the two prompts. -/
def prompts : String :=
  "Here is a sequence that is close to Fibonacci. \nEnter a: Enter b: "

/-- The Fibonacci numbers `F(0) = 0`, `F(1) = 1`, `F(n+2) = F(n) + F(n+1)`. -/
def F : Nat → Int
  | 0 => 0
  | 1 => 1
  | n + 2 => F n + F (n + 1)

/-- The run that prints the greeting, the prompts and the ten values `t 0, ..., t 9`
with `", "` between them. -/
def runOf (t : Nat → Int) : Run :=
  { cout := [Item.text "Here is a sequence that is close to Fibonacci. ", Item.text "\n",
      Item.text "Enter a: ", Item.text "Enter b: ",
      Item.num (t 0), Item.text ", ", Item.num (t 1), Item.text ", ", Item.num (t 2),
      Item.text ", ", Item.num (t 3), Item.text ", ", Item.num (t 4), Item.text ", ",
      Item.num (t 5), Item.text ", ", Item.num (t 6), Item.text ", ", Item.num (t 7),
      Item.text ", ", Item.num (t 8), Item.text ", ", Item.num (t 9)],
    exitCode := 0 }

end NotFibonacci

namespace ArrayInfo

/-! ## What the predicates compute: proofs -/

theorem runLoop_descending (integers : Buffer) (n : Nat) :
    ∀ (d i : Nat) (cm : Int) (fuel : Nat), i + d = n → d < fuel →
      runLoop (descendingStep integers n) fuel (i, cm) =
        some (decide ((i < n → integers i ≤ cm) ∧
          ∀ j < n, i < j → integers j ≤ integers (j - 1))) := by
  intro d
  induction d with
  | zero =>
    intro i cm fuel hi hf
    obtain ⟨f, rfl⟩ : ∃ f, fuel = f + 1 := ⟨fuel - 1, by omega⟩
    have hn : ¬ i < n := by omega
    have hstep : descendingStep integers n (i, cm) = Step.leave true := by
      simp [descendingStep, hn]
    have h2 : ∀ j < n, i < j → integers j ≤ integers (j - 1) := by
      intro j hj hij; omega
    simp only [runLoop, hstep]
    exact congrArg some (decide_eq_true ⟨fun h => absurd h hn, h2⟩).symm
  | succ d ih =>
    intro i cm fuel hi hf
    obtain ⟨f, rfl⟩ : ∃ f, fuel = f + 1 := ⟨fuel - 1, by omega⟩
    have hn : i < n := by omega
    by_cases hc : integers i > cm
    · have hstep : descendingStep integers n (i, cm) = Step.leave false := by
        simp [descendingStep, hn, hc]
      simp only [runLoop, hstep]
      exact congrArg some (decide_eq_false fun h => absurd (h.1 hn) (by omega)).symm
    · have hle : integers i ≤ cm := by omega
      have hstep : descendingStep integers n (i, cm) = Step.next (i + 1, integers i) := by
        simp [descendingStep, hn, hc]
      simp only [runLoop, hstep]
      rw [ih (i + 1) (integers i) f (by omega) (by omega)]
      refine congrArg some (decide_eq_decide.mpr ⟨?_, ?_⟩)
      · rintro ⟨h1, h2⟩
        refine ⟨fun _ => hle, fun j hj hij => ?_⟩
        by_cases hj1 : j = i + 1
        · subst hj1; simpa using h1 hj
        · exact h2 j hj (by omega)
      · rintro ⟨_, h2⟩
        exact ⟨fun h => by simpa using h2 (i + 1) h (by omega),
          fun j hj hij => h2 j hj (by omega)⟩

theorem Descending_eq (integers : Buffer) (n : Nat) :
    Descending integers n = some (decide (NonIncreasing integers n)) := by
  unfold Descending
  rw [runLoop_descending integers n n 0 (integers 0) (n + 1) (by omega) (by omega)]
  refine congrArg some (decide_eq_decide.mpr ?_)
  unfold NonIncreasing
  constructor
  · rintro ⟨_, h2⟩ j hj h1
    exact h2 j hj (by omega)
  · intro h
    exact ⟨fun _ => le_refl _, fun j hj h1 => h j hj (by omega)⟩

theorem runLoop_ascending (integers : Buffer) (n : Nat) :
    ∀ (d i : Nat) (cx : Int) (fuel : Nat), i + d = n → d < fuel →
      runLoop (ascendingStep integers n) fuel (i, cx) =
        some (decide ((i < n → cx ≤ integers i) ∧
          ∀ j < n, i < j → integers (j - 1) ≤ integers j)) := by
  intro d
  induction d with
  | zero =>
    intro i cx fuel hi hf
    obtain ⟨f, rfl⟩ : ∃ f, fuel = f + 1 := ⟨fuel - 1, by omega⟩
    have hn : ¬ i < n := by omega
    have hstep : ascendingStep integers n (i, cx) = Step.leave true := by
      simp [ascendingStep, hn]
    have h2 : ∀ j < n, i < j → integers (j - 1) ≤ integers j := by
      intro j hj hij; omega
    simp only [runLoop, hstep]
    exact congrArg some (decide_eq_true ⟨fun h => absurd h hn, h2⟩).symm
  | succ d ih =>
    intro i cx fuel hi hf
    obtain ⟨f, rfl⟩ : ∃ f, fuel = f + 1 := ⟨fuel - 1, by omega⟩
    have hn : i < n := by omega
    by_cases hc : integers i < cx
    · have hstep : ascendingStep integers n (i, cx) = Step.leave false := by
        simp [ascendingStep, hn, hc]
      simp only [runLoop, hstep]
      exact congrArg some (decide_eq_false fun h => absurd (h.1 hn) (by omega)).symm
    · have hle : cx ≤ integers i := by omega
      have hstep : ascendingStep integers n (i, cx) = Step.next (i + 1, integers i) := by
        simp [ascendingStep, hn, hc]
      simp only [runLoop, hstep]
      rw [ih (i + 1) (integers i) f (by omega) (by omega)]
      refine congrArg some (decide_eq_decide.mpr ⟨?_, ?_⟩)
      · rintro ⟨h1, h2⟩
        refine ⟨fun _ => hle, fun j hj hij => ?_⟩
        by_cases hj1 : j = i + 1
        · subst hj1; simpa using h1 hj
        · exact h2 j hj (by omega)
      · rintro ⟨_, h2⟩
        exact ⟨fun h => by simpa using h2 (i + 1) h (by omega),
          fun j hj hij => h2 j hj (by omega)⟩

theorem Ascending_eq (integers : Buffer) (n : Nat) :
    Ascending integers n = some (decide (NonDecreasing integers n)) := by
  unfold Ascending
  rw [runLoop_ascending integers n n 0 (integers 0) (n + 1) (by omega) (by omega)]
  refine congrArg some (decide_eq_decide.mpr ?_)
  unfold NonDecreasing
  constructor
  · rintro ⟨_, h2⟩ j hj h1
    exact h2 j hj (by omega)
  · intro h
    exact ⟨fun _ => le_refl _, fun j hj h1 => h j hj (by omega)⟩

theorem runLoop_sameOrder (integers : Buffer) (n : Nat) :
    ∀ (d i fuel : Nat), i + d = n → d < fuel →
      runLoop (sameOrderStep integers n) fuel i =
        some (decide (∀ j < n, i ≤ j → integers j = integers (n - 1 - j))) := by
  intro d
  induction d with
  | zero =>
    intro i fuel hi hf
    obtain ⟨f, rfl⟩ : ∃ f, fuel = f + 1 := ⟨fuel - 1, by omega⟩
    have hn : ¬ i < n := by omega
    have hstep : sameOrderStep integers n i = Step.leave true := by
      simp [sameOrderStep, hn]
    simp only [runLoop, hstep]
    exact congrArg some (decide_eq_true fun j hj hij => absurd hj (by omega)).symm
  | succ d ih =>
    intro i fuel hi hf
    obtain ⟨f, rfl⟩ : ∃ f, fuel = f + 1 := ⟨fuel - 1, by omega⟩
    have hn : i < n := by omega
    have hidx : n - (1 + i) = n - 1 - i := by omega
    by_cases hc : integers i ≠ integers (n - (1 + i))
    · have hstep : sameOrderStep integers n i = Step.leave false := by
        simp [sameOrderStep, hn, hc]
      simp only [runLoop, hstep]
      exact congrArg some
        (decide_eq_false fun h => hc (hidx ▸ h i hn (le_refl i))).symm
    · have heq : integers i = integers (n - (1 + i)) := not_not.mp hc
      have hstep : sameOrderStep integers n i = Step.next (i + 1) := by
        simp [sameOrderStep, hn, heq.symm]
      simp only [runLoop, hstep]
      rw [ih (i + 1) f (by omega) (by omega)]
      refine congrArg some (decide_eq_decide.mpr ⟨?_, ?_⟩)
      · intro h j hj hij
        by_cases hji : j = i
        · subst hji; rw [← hidx]; exact heq
        · exact h j hj (by omega)
      · intro h j hj hij
        exact h j hj (by omega)

theorem SameOrder_eq (integers : Buffer) (n : Nat) :
    SameOrder integers n = some (decide (Palindrome integers n)) := by
  unfold SameOrder
  rw [runLoop_sameOrder integers n n 0 (n + 1) (by omega) (by omega)]
  refine congrArg some (decide_eq_decide.mpr ?_)
  unfold Palindrome
  exact ⟨fun h j hj => h j hj (Nat.zero_le j), fun h j hj _ => h j hj⟩


/-! ## What the read phase leaves behind -/

theorem readStep_cons (i : Nat) (s : State) (v : Int) (rest : List Int) (hi : i < 40)
    (hc : s.cin = v :: rest) :
    readStep (i, s) =
      if v = -1 then
        Step.leave { integers := s.integers.write i v, maxIteration := i, cin := rest }
      else
        Step.next (i + 1, { integers := s.integers.write i v, maxIteration := i, cin := rest })
      := by
  simp [readStep, extract, hc, hi, Buffer.write]

theorem runLoop_read_sentinel (rest : List Int) :
    ∀ (vals : List Int) (i : Nat) (s : State) (fuel : Nat),
      s.cin = vals ++ -1 :: rest → -1 ∉ vals → i + vals.length < 40 → vals.length < fuel →
      ∃ s', runLoop readStep fuel (i, s) = some s' ∧ s'.maxIteration = i + vals.length ∧
        s'.cin = rest ∧ (∀ j < vals.length, s'.integers (i + j) = vals.getD j 0) ∧
        s'.integers (i + vals.length) = -1 ∧ ∀ j < i, s'.integers j = s.integers j := by
  intro vals
  induction vals with
  | nil =>
    intro i s fuel hc _ hi hf
    obtain ⟨f, rfl⟩ : ∃ f, fuel = f + 1 := ⟨fuel - 1, by omega⟩
    have hstep := readStep_cons i s (-1) rest (by omega) (by simpa using hc)
    simp only [if_true] at hstep
    refine ⟨{ integers := s.integers.write i (-1), maxIteration := i, cin := rest },
      by simp only [runLoop, hstep], rfl, rfl, ?_, ?_, ?_⟩
    · intro j hj; simp at hj
    · simp [Buffer.write]
    · intro j hj
      have : j ≠ i := by omega
      simp [Buffer.write, this]
  | cons v vs ih =>
    intro i s fuel hc hmem hi hf
    obtain ⟨f, rfl⟩ : ∃ f, fuel = f + 1 := ⟨fuel - 1, by omega⟩
    simp only [List.length_cons] at hi hf
    have hv : v ≠ -1 := fun h => hmem (by simp [h])
    have hvs : -1 ∉ vs := fun h => hmem (List.mem_cons_of_mem _ h)
    have hstep := readStep_cons i s v (vs ++ -1 :: rest) (by omega) (by simpa using hc)
    simp only [hv, if_false] at hstep
    obtain ⟨s', hrun, hmax, hcin, hvals, hsent, hframe⟩ :=
      ih (i + 1) { integers := s.integers.write i v, maxIteration := i, cin := vs ++ -1 :: rest }
        f rfl hvs (by omega) (by omega)
    refine ⟨s', by simp only [runLoop, hstep]; exact hrun, ?_, hcin, ?_, ?_, ?_⟩
    · simp only [List.length_cons]; omega
    · intro j hj
      cases j with
      | zero =>
        have := hframe i (by omega)
        simpa [Buffer.write] using this
      | succ j =>
        simp only [List.length_cons] at hj
        have := hvals j (by omega)
        simpa [Nat.add_assoc, Nat.add_comm 1 j] using this
    · simp only [List.length_cons]
      have : i + (vs.length + 1) = i + 1 + vs.length := by omega
      rw [this]; exact hsent
    · intro j hj
      have h1 := hframe j (by omega)
      have : j ≠ i := by omega
      simpa [Buffer.write, this] using h1


theorem runLoop_read_full (rest : List Int) :
    ∀ (vals : List Int) (i : Nat) (s : State) (fuel : Nat),
      s.cin = vals ++ rest → -1 ∉ vals → i + vals.length = 40 → vals.length < fuel →
      ∃ s', runLoop readStep fuel (i, s) = some s' ∧ (vals = [] → s' = s) ∧
        (vals ≠ [] → s'.maxIteration = 39) ∧ s'.cin = rest ∧
        (∀ j < vals.length, s'.integers (i + j) = vals.getD j 0) ∧
        ∀ j < i, s'.integers j = s.integers j := by
  intro vals
  induction vals with
  | nil =>
    intro i s fuel hc _ hi hf
    obtain ⟨f, rfl⟩ : ∃ f, fuel = f + 1 := ⟨fuel - 1, by omega⟩
    have hi40 : ¬ i < 40 := by simp at hi; omega
    have hstep : readStep (i, s) = Step.leave s := by simp [readStep, hi40]
    refine ⟨s, by simp only [runLoop, hstep], fun _ => rfl, fun h => absurd rfl h,
      by simpa using hc, ?_, fun j _ => rfl⟩
    intro j hj; simp at hj
  | cons v vs ih =>
    intro i s fuel hc hmem hi hf
    obtain ⟨f, rfl⟩ : ∃ f, fuel = f + 1 := ⟨fuel - 1, by omega⟩
    simp only [List.length_cons] at hi hf
    have hv : v ≠ -1 := fun h => hmem (by simp [h])
    have hvs : -1 ∉ vs := fun h => hmem (List.mem_cons_of_mem _ h)
    have hstep := readStep_cons i s v (vs ++ rest) (by omega) (by simpa using hc)
    simp only [hv, if_false] at hstep
    obtain ⟨s', hrun, hnil, hmax, hcin, hvals, hframe⟩ :=
      ih (i + 1) { integers := s.integers.write i v, maxIteration := i, cin := vs ++ rest }
        f rfl hvs (by omega) (by omega)
    refine ⟨s', by simp only [runLoop, hstep]; exact hrun, fun h => by simp at h, fun _ => ?_,
      hcin, ?_, ?_⟩
    · by_cases hvs0 : vs = []
      · rw [hnil hvs0]
        subst hvs0
        simp at hi
        simpa using hi
      · exact hmax hvs0
    · intro j hj
      cases j with
      | zero =>
        have := hframe i (by omega)
        simpa [Buffer.write] using this
      | succ j =>
        simp only [List.length_cons] at hj
        have := hvals j (by omega)
        simpa [Nat.add_assoc, Nat.add_comm 1 j] using this
    · intro j hj
      have h1 := hframe j (by omega)
      have : j ≠ i := by omega
      simpa [Buffer.write, this] using h1

theorem runLoop_read_total :
    ∀ (d i : Nat) (s : State) (fuel : Nat), i + d = 40 → d < fuel →
      ∃ s', runLoop readStep fuel (i, s) = some s' ∧ (i = 40 → s' = s) ∧
        (i < 40 → s'.maxIteration < 40) := by
  intro d
  induction d with
  | zero =>
    intro i s fuel hi hf
    obtain ⟨f, rfl⟩ : ∃ f, fuel = f + 1 := ⟨fuel - 1, by omega⟩
    have hi40 : ¬ i < 40 := by omega
    have hstep : readStep (i, s) = Step.leave s := by simp [readStep, hi40]
    exact ⟨s, by simp only [runLoop, hstep], fun _ => rfl, fun h => absurd h hi40⟩
  | succ d ih =>
    intro i s fuel hi hf
    obtain ⟨f, rfl⟩ : ∃ f, fuel = f + 1 := ⟨fuel - 1, by omega⟩
    have hi40 : i < 40 := by omega
    by_cases hb : ({ extract i s with maxIteration := i } : State).integers i = -1
    · have hstep : readStep (i, s) = Step.leave { extract i s with maxIteration := i } := by
        simp only [readStep, hi40, if_true]
        rw [if_pos hb]
      exact ⟨{ extract i s with maxIteration := i }, by simp only [runLoop, hstep],
        fun h => by omega, fun _ => hi40⟩
    · have hstep : readStep (i, s) =
          Step.next (i + 1, { extract i s with maxIteration := i }) := by
        simp only [readStep, hi40, if_true]
        rw [if_neg hb]
      obtain ⟨s', hrun, heq, hlt⟩ :=
        ih (i + 1) { extract i s with maxIteration := i } f (by omega) (by omega)
      refine ⟨s', by simp only [runLoop, hstep]; exact hrun, fun h => by omega, fun _ => ?_⟩
      by_cases h40 : i + 1 = 40
      · rw [heq h40]; exact hi40
      · exact hlt (by omega)

theorem readPhase_sentinel (vals rest : List Int) (stack : Buffer) (hmem : -1 ∉ vals)
    (hlen : vals.length ≤ 39) :
    ∃ s, readPhase (vals ++ -1 :: rest) stack = some s ∧ s.maxIteration = vals.length ∧
      s.cin = rest ∧ (∀ j < vals.length, s.integers j = vals.getD j 0) ∧
      s.integers vals.length = -1 := by
  obtain ⟨s, hrun, hmax, hcin, hvals, hsent, _⟩ :=
    runLoop_read_sentinel rest vals 0
      { integers := stack, maxIteration := 0, cin := vals ++ -1 :: rest } 41 rfl hmem
      (by omega) (by omega)
  refine ⟨s, hrun, by simpa using hmax, hcin, fun j hj => ?_, by simpa using hsent⟩
  simpa using hvals j hj

theorem readPhase_full (vals rest : List Int) (stack : Buffer) (hmem : -1 ∉ vals)
    (hlen : vals.length = 40) :
    ∃ s, readPhase (vals ++ rest) stack = some s ∧ s.maxIteration = 39 ∧
      s.cin = rest ∧ ∀ j < 40, s.integers j = vals.getD j 0 := by
  obtain ⟨s, hrun, _, hmax, hcin, hvals, _⟩ :=
    runLoop_read_full rest vals 0
      { integers := stack, maxIteration := 0, cin := vals ++ rest } 41 rfl hmem
      (by omega) (by omega)
  have hne : vals ≠ [] := fun h => by simp [h] at hlen
  refine ⟨s, hrun, hmax hne, hcin, fun j hj => ?_⟩
  simpa using hvals j (by omega)

theorem readPhase_total (cin : List Int) (stack : Buffer) :
    ∃ s, readPhase cin stack = some s ∧ s.maxIteration ≤ 39 := by
  obtain ⟨s, hrun, _, hlt⟩ :=
    runLoop_read_total 40 0 { integers := stack, maxIteration := 0, cin := cin } 41
      (by omega) (by omega)
  exact ⟨s, hrun, by have := hlt (by omega); omega⟩

/-! ## From the properties to the printed message -/

theorem NonIncreasing_congr {a b : Buffer} {n : Nat} (h : ∀ i < n, a i = b i) :
    NonIncreasing a n ↔ NonIncreasing b n := by
  unfold NonIncreasing
  constructor
  · intro H i hi h1
    rw [← h i hi, ← h (i - 1) (by omega)]; exact H i hi h1
  · intro H i hi h1
    rw [h i hi, h (i - 1) (by omega)]; exact H i hi h1

theorem NonDecreasing_congr {a b : Buffer} {n : Nat} (h : ∀ i < n, a i = b i) :
    NonDecreasing a n ↔ NonDecreasing b n := by
  unfold NonDecreasing
  constructor
  · intro H i hi h1
    rw [← h i hi, ← h (i - 1) (by omega)]; exact H i hi h1
  · intro H i hi h1
    rw [h i hi, h (i - 1) (by omega)]; exact H i hi h1

theorem Palindrome_congr {a b : Buffer} {n : Nat} (h : ∀ i < n, a i = b i) :
    Palindrome a n ↔ Palindrome b n := by
  unfold Palindrome
  constructor
  · intro H i hi
    rw [← h i hi, ← h (n - 1 - i) (by omega)]; exact H i hi
  · intro H i hi
    rw [h i hi, h (n - 1 - i) (by omega)]; exact H i hi

theorem verdict_congr (a b : Buffer) (n : Nat) (h : ∀ i < n, a i = b i) :
    verdict a n = verdict b n := by
  unfold verdict
  simp only [NonIncreasing_congr h, NonDecreasing_congr h, Palindrome_congr h]

theorem classify_eq (s : State) :
    classify s = some (report (verdict s.integers s.maxIteration)) := by
  unfold classify verdict
  rw [Descending_eq, Ascending_eq, SameOrder_eq]
  by_cases hd : NonIncreasing s.integers s.maxIteration
  · simp [hd]
  · by_cases ha : NonDecreasing s.integers s.maxIteration
    · simp [hd, ha]
    · by_cases hp : Palindrome s.integers s.maxIteration <;> simp [hd, ha, hp]

theorem main_sentinel (vals rest : List Int) (stack : Buffer) (hmem : -1 ∉ vals)
    (hlen : vals.length ≤ 39) :
    main (vals ++ -1 :: rest) stack = some (report (verdict (cells vals) vals.length)) := by
  obtain ⟨s, hrun, hmax, _, hvals, _⟩ := readPhase_sentinel vals rest stack hmem hlen
  unfold main
  rw [hrun]
  simp only [classify_eq, hmax]
  rw [verdict_congr s.integers (cells vals) vals.length hvals]

theorem main_full (vals rest : List Int) (stack : Buffer) (hmem : -1 ∉ vals)
    (hlen : vals.length = 40) :
    main (vals ++ rest) stack = some (report (verdict (cells vals) 39)) := by
  obtain ⟨s, hrun, hmax, _, hvals⟩ := readPhase_full vals rest stack hmem hlen
  unfold main
  rw [hrun]
  simp only [classify_eq, hmax]
  rw [verdict_congr s.integers (cells vals) 39 fun i hi => hvals i (by omega)]

/-! ## The loop of `Descending`, pass by pass -/

theorem stateAfter_descending (integers : Buffer) (n : Nat) :
    ∀ (k i : Nat) (cm : Int), i + k ≤ n → (0 < k → integers i ≤ cm) →
      (∀ j, i < j → j < i + k → integers j ≤ integers (j - 1)) →
      stateAfter (descendingStep integers n) k (i, cm) =
        some (i + k, if k = 0 then cm else integers (i + k - 1)) := by
  intro k
  induction k with
  | zero => intro i cm _ _ _; simp [stateAfter]
  | succ k ih =>
    intro i cm hik hcm hmono
    have hn : i < n := by omega
    have hc : ¬ integers i > cm := by have := hcm (by omega); omega
    have hstep : descendingStep integers n (i, cm) = Step.next (i + 1, integers i) := by
      simp [descendingStep, hn, hc]
    simp only [stateAfter, hstep]
    rw [ih (i + 1) (integers i) (by omega) (fun _ => by simpa using hmono (i + 1) (by omega) (by omega))
      (fun j h1 h2 => hmono j (by omega) (by omega))]
    have e1 : i + 1 + k = i + (k + 1) := by omega
    by_cases hk : k = 0
    · subst hk; simp
    · have e2 : i + 1 + k - 1 = i + (k + 1) - 1 := by omega
      simp [hk, e1, e2]

theorem stateAfter_descending_inv (integers : Buffer) (n : Nat) :
    ∀ (k i : Nat) (cm : Int) (i' : Nat) (cm' : Int),
      stateAfter (descendingStep integers n) k (i, cm) = some (i', cm') →
      i' = i + k ∧ cm' = (if k = 0 then cm else integers (i + k - 1)) ∧
        (0 < k → integers i ≤ cm) ∧
        ∀ j, i < j → j < i + k → integers j ≤ integers (j - 1) := by
  intro k
  induction k with
  | zero =>
    intro i cm i' cm' h
    simp only [stateAfter, Option.some.injEq, Prod.mk.injEq] at h
    exact ⟨by omega, by simp [h.2], fun h0 => by omega, fun j h1 h2 => by omega⟩
  | succ k ih =>
    intro i cm i' cm' h
    by_cases hn : i < n
    · by_cases hc : integers i > cm
      · have hstep : descendingStep integers n (i, cm) = Step.leave false := by
          simp [descendingStep, hn, hc]
        simp [stateAfter, hstep] at h
      · have hstep : descendingStep integers n (i, cm) = Step.next (i + 1, integers i) := by
          simp [descendingStep, hn, hc]
        simp only [stateAfter, hstep] at h
        obtain ⟨h1, h2, h0, h3⟩ := ih (i + 1) (integers i) i' cm' h
        refine ⟨by omega, ?_, fun _ => by omega, ?_⟩
        · rw [h2]
          by_cases hk : k = 0
          · subst hk; simp
          · have e2 : i + 1 + k - 1 = i + (k + 1) - 1 := by omega
            simp [hk, e2]
        · intro j hj1 hj2
          by_cases hj : j = i + 1
          · subst hj
            simpa using h0 (by omega)
          · exact h3 j (by omega) (by omega)
    · have hstep : descendingStep integers n (i, cm) = Step.leave true := by
        simp [descendingStep, hn]
      simp [stateAfter, hstep] at h

theorem runningMin_spec (integers : Buffer) :
    ∀ i, (∀ j < i + 1, runningMin integers (i + 1) ≤ integers j) ∧
      ∃ j < i + 1, runningMin integers (i + 1) = integers j := by
  intro i
  induction i with
  | zero =>
    refine ⟨fun j hj => ?_, 0, by omega, by simp [runningMin]⟩
    have : j = 0 := by omega
    subst this; simp [runningMin]
  | succ i ih =>
    obtain ⟨hle, j0, hj0, heq⟩ := ih
    have hdef : runningMin integers (i + 1 + 1) =
        min (runningMin integers (i + 1)) (integers (i + 1)) := rfl
    refine ⟨fun j hj => ?_, ?_⟩
    · rw [hdef]
      by_cases h : j = i + 1
      · subst h; exact min_le_right _ _
      · exact le_trans (min_le_left _ _) (hle j (by omega))
    · rcases min_choice (runningMin integers (i + 1)) (integers (i + 1)) with h | h
      · exact ⟨j0, by omega, by rw [hdef, h, heq]⟩
      · exact ⟨i + 1, by omega, by rw [hdef, h]⟩

theorem runningMin_of_nonIncreasing (integers : Buffer) :
    ∀ k, NonIncreasing integers k → runningMin integers k = integers (k - 1) := by
  intro k
  induction k with
  | zero => intro _; rfl
  | succ k ih =>
    intro h
    have hk : NonIncreasing integers k := fun i hi h1 => h i (by omega) h1
    have hdef : runningMin integers (k + 1) = min (runningMin integers k) (integers k) := rfl
    rw [hdef, ih hk]
    by_cases h0 : k = 0
    · subst h0; simp
    · simpa using h k (by omega) (by omega)

theorem nonIncreasing_iff_le_runningMin (integers : Buffer) (n : Nat) :
    NonIncreasing integers n ↔ ∀ i < n, integers i ≤ runningMin integers i := by
  constructor
  · intro h i hi
    have hi' : NonIncreasing integers i := fun j hj h1 => h j (by omega) h1
    rw [runningMin_of_nonIncreasing integers i hi']
    by_cases h0 : i = 0
    · subst h0; exact le_refl _
    · exact h i hi (by omega)
  · intro h i hi h1
    obtain ⟨k, rfl⟩ : ∃ k, i = k + 1 := ⟨i - 1, by omega⟩
    exact le_trans (h (k + 1) hi) ((runningMin_spec integers k).1 k (by omega))

theorem Descending_true_iff (integers : Buffer) (n : Nat) :
    Descending integers n = some true ↔ NonIncreasing integers n := by
  rw [Descending_eq]; simp

theorem Ascending_true_iff (integers : Buffer) (n : Nat) :
    Ascending integers n = some true ↔ NonDecreasing integers n := by
  rw [Ascending_eq]; simp

theorem SameOrder_true_iff (integers : Buffer) (n : Nat) :
    SameOrder integers n = some true ↔ Palindrome integers n := by
  rw [SameOrder_eq]; simp

theorem nonDecreasing_iff_reverse (integers : Buffer) (n : Nat) :
    NonDecreasing integers n ↔ NonIncreasing (reverseFirst integers n) n := by
  unfold NonDecreasing NonIncreasing reverseFirst
  constructor
  · intro h i hi h1
    have h2 : i - 1 < n := by omega
    simp only [hi, h2, if_true]
    have e : n - 1 - (i - 1) - 1 = n - 1 - i := by omega
    have := h (n - 1 - (i - 1)) (by omega) (by omega)
    rwa [e] at this
  · intro h i hi h1
    have h3 : n - 1 - (i - 1) < n := by omega
    have h4 : n - 1 - (i - 1) - 1 < n := by omega
    have := h (n - 1 - (i - 1)) (by omega) (by omega)
    simp only [h3, h4, if_true] at this
    have e1 : n - 1 - (n - 1 - (i - 1)) = i - 1 := by omega
    have e2 : n - 1 - (n - 1 - (i - 1) - 1) = i := by omega
    rwa [e1, e2] at this

/-! ## The classifier as a whole -/

/-- Claim C1. For every input (and whatever the array held before), `main` reads, runs the
three tests and ends with exit code 0 after printing exactly one of the four messages: the
descending one if `Descending` returns true, otherwise the ascending one if `Ascending`
returns true, otherwise the same-order one if `SameOrder` returns true, otherwise the
fallback; the four messages are pairwise different. -/
theorem main_prints_one_message (cin : List Int) (stack : Buffer) :
    ∃ (s : State) (d a p : Bool) (run : Run),
      readPhase cin stack = some s ∧
      Descending s.integers s.maxIteration = some d ∧
      Ascending s.integers s.maxIteration = some a ∧
      SameOrder s.integers s.maxIteration = some p ∧
      main cin stack = some run ∧ run.exitCode = 0 ∧
      run.stdout = prompt ++
        (if d then descendingMsg else if a then ascendingMsg
         else if p then sameOrderMsg else fallbackMsg) ++ "\n" ∧
      [descendingMsg, ascendingMsg, sameOrderMsg, fallbackMsg].Nodup := by
  obtain ⟨s, hrun, _⟩ := readPhase_total cin stack
  refine ⟨s, decide (NonIncreasing s.integers s.maxIteration),
    decide (NonDecreasing s.integers s.maxIteration),
    decide (Palindrome s.integers s.maxIteration),
    report (verdict s.integers s.maxIteration), hrun, Descending_eq _ _,
    Ascending_eq _ _, SameOrder_eq _ _, ?_, rfl, ?_, by decide⟩
  · unfold main; rw [hrun]; exact classify_eq s
  · simp only [report, verdict, decide_eq_true_eq]

/-- Claim C2. The read phase always ends, with `maxIteration` at most 39.  When the first
`-1` of the input stands at an index `k ≤ 39` (the input is `vals ++ -1 :: rest` with no
`-1` in `vals`), it ends with `maxIteration = k`, the values in front of the sentinel in
cells `0..k-1`, the sentinel in cell `k`, and everything after the sentinel still unread.
When the first 40 values hold no `-1`, it reads exactly these 40 values into cells `0..39`
and ends with `maxIteration = 39`, the index of the last value read. -/
theorem readPhase_stops_at_sentinel (cin : List Int) (stack : Buffer) :
    (∃ s, readPhase cin stack = some s ∧ s.maxIteration ≤ 39) ∧
    (∀ vals rest, cin = vals ++ -1 :: rest → -1 ∉ vals → vals.length ≤ 39 →
      ∃ s, readPhase cin stack = some s ∧ s.maxIteration = vals.length ∧ s.cin = rest ∧
        (∀ j < vals.length, s.integers j = vals.getD j 0) ∧ s.integers vals.length = -1) ∧
    (∀ vals rest, cin = vals ++ rest → -1 ∉ vals → vals.length = 40 →
      ∃ s, readPhase cin stack = some s ∧ s.maxIteration = 39 ∧ s.cin = rest ∧
        ∀ j < 40, s.integers j = vals.getD j 0) := by
  refine ⟨readPhase_total cin stack, ?_, ?_⟩
  · rintro vals rest rfl hmem hlen
    exact readPhase_sentinel vals rest stack hmem hlen
  · rintro vals rest rfl hmem hlen
    exact readPhase_full vals rest stack hmem hlen

/-- Witness for C2: the input `5 3 -1 8 8` stops at index 2 with `8 8` unread, and the forty
sevens are all read, ending with `maxIteration = 39`. -/
theorem readPhase_stops_at_sentinel_witness :
    (∃ s, readPhase [5, 3, -1, 8, 8] (fun _ => 0) = some s ∧ s.maxIteration = 2 ∧
      s.cin = [8, 8] ∧ (∀ j < 2, s.integers j = [5, 3].getD j 0) ∧ s.integers 2 = -1) ∧
    (∃ s, readPhase fortySevens (fun _ => 0) = some s ∧ s.maxIteration = 39 ∧ s.cin = [] ∧
      ∀ j < 40, s.integers j = fortySevens.getD j 0) :=
  ⟨(readPhase_stops_at_sentinel [5, 3, -1, 8, 8] (fun _ => 0)).2.1 [5, 3] [8, 8] rfl
      (by decide) (by decide),
   (readPhase_stops_at_sentinel fortySevens (fun _ => 0)).2.2 fortySevens [] (by decide)
      (by decide) (by decide)⟩

/-- Claim C3, evaluated at the full input `40 39 ... 2 100`: whatever the array held before,
`main` prints the descending message, although the fortieth value `100` is greater than the
value `2` before it. -/
theorem main_descendingThenUp (stack : Buffer) :
    descendingThenUp.length = 40 ∧ -1 ∉ descendingThenUp ∧
    main descendingThenUp stack = some (report descendingMsg) ∧
    ¬ NonIncreasing (cells descendingThenUp) 40 := by
  refine ⟨by decide, by decide, ?_, by decide⟩
  have h := main_full descendingThenUp [] stack (by decide) (by decide)
  rw [List.append_nil] at h
  rw [h]
  decide

/-- Claim C4, evaluated at the full input `1 2 ... 39 0`: whatever the array held before,
`main` prints the ascending message, although the fortieth value `0` is less than the value
`39` before it. -/
theorem main_ascendingThenDown (stack : Buffer) :
    ascendingThenDown.length = 40 ∧ -1 ∉ ascendingThenDown ∧
    main ascendingThenDown stack = some (report ascendingMsg) ∧
    ¬ NonDecreasing (cells ascendingThenDown) 40 := by
  refine ⟨by decide, by decide, ?_, by decide⟩
  have h := main_full ascendingThenDown [] stack (by decide) (by decide)
  rw [List.append_nil] at h
  rw [h]
  decide

/-- Claim C5. Two inputs that agree up to and including their first `-1`, which stands at
index `n ≤ 39` (both are `vals ++ -1 :: rest` with no `-1` in the `n` values `vals`), make
`main` print the same message, whatever follows the sentinel and whatever the array held
before: the message is the verdict on the `n` values alone, and the three predicates give
the same answer on any two buffers that agree on cells `0..n-1`.  In particular the input
`5 3 -1` ends the read phase with `maxIteration = 2` and prints the descending message. -/
theorem values_before_sentinel_determine_message (vals rest₁ rest₂ : List Int)
    (stack₁ stack₂ : Buffer) (hmem : -1 ∉ vals) (hlen : vals.length ≤ 39) :
    main (vals ++ -1 :: rest₁) stack₁ = main (vals ++ -1 :: rest₂) stack₂ ∧
    main (vals ++ -1 :: rest₁) stack₁ = some (report (verdict (cells vals) vals.length)) ∧
    (∀ b b' : Buffer, (∀ i < vals.length, b i = b' i) →
      Descending b vals.length = Descending b' vals.length ∧
      Ascending b vals.length = Ascending b' vals.length ∧
      SameOrder b vals.length = SameOrder b' vals.length) ∧
    (∃ s, readPhase [5, 3, -1] stack₁ = some s ∧ s.maxIteration = 2) ∧
    main [5, 3, -1] stack₁ = some (report descendingMsg) := by
  refine ⟨?_, main_sentinel vals rest₁ stack₁ hmem hlen, ?_, ?_, ?_⟩
  · rw [main_sentinel vals rest₁ stack₁ hmem hlen, main_sentinel vals rest₂ stack₂ hmem hlen]
  · intro b b' h
    simp only [Descending_eq, Ascending_eq, SameOrder_eq, NonIncreasing_congr h,
      NonDecreasing_congr h, Palindrome_congr h, and_self]
  · obtain ⟨s, h1, h2, _⟩ := readPhase_sentinel [5, 3] [] stack₁ (by decide) (by decide)
    exact ⟨s, h1, h2⟩
  · rw [show ([5, 3, -1] : List Int) = [5, 3] ++ -1 :: [] from rfl,
      main_sentinel [5, 3] [] stack₁ (by decide) (by decide)]
    decide

/-- Witness for C5: `5 3 -1` and `5 3 -1 9 1`, run over different array contents. -/
theorem values_before_sentinel_determine_message_witness :
    main ([5, 3] ++ -1 :: []) (fun _ => 0) = main ([5, 3] ++ -1 :: [9, 1]) (fun _ => 4) ∧
    main ([5, 3] ++ -1 :: []) (fun _ => 0) = some (report descendingMsg) :=
  ⟨(values_before_sentinel_determine_message [5, 3] [] [9, 1] (fun _ => 0) (fun _ => 4)
      (by decide) (by decide)).1,
   (values_before_sentinel_determine_message [5, 3] [] [9, 1] (fun _ => 0) (fun _ => 4)
      (by decide) (by decide)).2.2.2.2⟩

/-- Claim C6. For every buffer and every `n ≤ 39`, `SameOrder` returns, and returns true
exactly when `integers[i] = integers[n-1-i]` for every `i < n`.  Hence a sentinel-terminated
input whose values before the sentinel are a palindrome and are neither non-increasing nor
non-decreasing makes `main` print the same-order message; `1 2 3 2 1 -1` is such an input,
read with `maxIteration = 5`. -/
theorem SameOrder_iff_palindrome (integers : Buffer) (n : Nat) (_hn : n ≤ 39) :
    (∃ b, SameOrder integers n = some b) ∧
    (SameOrder integers n = some true ↔ ∀ i < n, integers i = integers (n - 1 - i)) ∧
    (∀ (vals rest : List Int) (stack : Buffer), -1 ∉ vals → vals.length ≤ 39 →
      Palindrome (cells vals) vals.length → ¬ NonIncreasing (cells vals) vals.length →
      ¬ NonDecreasing (cells vals) vals.length →
      main (vals ++ -1 :: rest) stack = some (report sameOrderMsg)) ∧
    (∀ stack : Buffer, (∃ s, readPhase [1, 2, 3, 2, 1, -1] stack = some s ∧
      s.maxIteration = 5) ∧ main [1, 2, 3, 2, 1, -1] stack = some (report sameOrderMsg)) := by
  refine ⟨⟨_, SameOrder_eq integers n⟩, SameOrder_true_iff integers n, ?_, ?_⟩
  · intro vals rest stack hmem hlen hp hd ha
    rw [main_sentinel vals rest stack hmem hlen]
    simp [verdict, hp, hd, ha]
  · intro stack
    constructor
    · obtain ⟨s, h1, h2, _⟩ :=
        readPhase_sentinel [1, 2, 3, 2, 1] [] stack (by decide) (by decide)
      exact ⟨s, h1, h2⟩
    · rw [show ([1, 2, 3, 2, 1, -1] : List Int) = [1, 2, 3, 2, 1] ++ -1 :: [] from rfl,
        main_sentinel [1, 2, 3, 2, 1] [] stack (by decide) (by decide)]
      decide

/-- Witness for C6: the buffer holding `1 2 3 2 1` with `n = 5`, and the input
`1 2 3 2 1 -1 6`. -/
theorem SameOrder_iff_palindrome_witness :
    SameOrder (cells [1, 2, 3, 2, 1]) 5 = some true ∧
    main ([1, 2, 3, 2, 1] ++ -1 :: [6]) (fun _ => 0) = some (report sameOrderMsg) :=
  ⟨(SameOrder_iff_palindrome (cells [1, 2, 3, 2, 1]) 5 (by decide)).2.1.mpr (by decide),
   (SameOrder_iff_palindrome (cells [1, 2, 3, 2, 1]) 5 (by decide)).2.2.1 [1, 2, 3, 2, 1] [6]
      (fun _ => 0) (by decide) (by decide) (by decide) (by decide) (by decide)⟩

/-- Claim C7. For every input, after the read phase: if the evaluated cells
`0..maxIteration-1` are all equal, then `Descending`, `Ascending` and `SameOrder` all return
true and `main` prints the descending message and nothing else; and whenever `Descending`
returns true, `main` prints the descending message, with no condition on what `Ascending`
and `SameOrder` return. -/
theorem descending_message_takes_priority (cin : List Int) (stack : Buffer) :
    ∃ s, readPhase cin stack = some s ∧
      ((∀ i < s.maxIteration, ∀ j < s.maxIteration, s.integers i = s.integers j) →
        Descending s.integers s.maxIteration = some true ∧
        Ascending s.integers s.maxIteration = some true ∧
        SameOrder s.integers s.maxIteration = some true ∧
        main cin stack = some (report descendingMsg)) ∧
      (Descending s.integers s.maxIteration = some true →
        main cin stack = some (report descendingMsg)) := by
  obtain ⟨s, hrun, _⟩ := readPhase_total cin stack
  have hmain : NonIncreasing s.integers s.maxIteration →
      main cin stack = some (report descendingMsg) := by
    intro hd
    unfold main
    simp only [hrun, classify_eq]
    simp [verdict, hd]
  refine ⟨s, hrun, fun heq => ?_, fun hd => hmain ((Descending_true_iff _ _).mp hd)⟩
  have hd : NonIncreasing s.integers s.maxIteration :=
    fun i hi _ => le_of_eq (heq i hi (i - 1) (by omega))
  refine ⟨(Descending_true_iff _ _).mpr hd, (Ascending_true_iff _ _).mpr ?_,
    (SameOrder_true_iff _ _).mpr ?_, hmain hd⟩
  · exact fun i hi _ => le_of_eq (heq (i - 1) (by omega) i hi)
  · exact fun i hi => heq i hi (s.maxIteration - 1 - i) (by omega)

/-- Witness for C7: the input `4 4 4 -1`. -/
theorem descending_message_takes_priority_witness :
    main [4, 4, 4, -1] (fun _ => 0) = some (report descendingMsg) := by
  obtain ⟨s, hrun, hall, _⟩ := descending_message_takes_priority [4, 4, 4, -1] (fun _ => 0)
  have hs : readPhase [4, 4, 4, -1] (fun _ => 0) = some ⟨_, 3, []⟩ := rfl
  rw [hs] at hrun
  cases hrun
  exact (hall (by decide)).2.2.2

/-- Claim C8. For every buffer and every `n ≤ 39`, `Descending` returns, and returns true
exactly when `integers[i] ≤ integers[i-1]` for every `i` in `1..n-1`.  That condition is the
same as every cell of index `i < n` being at most the running minimum in front of it, where
the running minimum in front of `i ≥ 1` is below every earlier cell and is one of them.  The
variable `current_min` equals that running minimum at every loop head the loop reaches: a
loop state `(i, current_min)` reached after `k` passes has `i = k` and
`current_min = runningMin integers i`, and while the first `k ≤ n` cells are non-increasing
the loop does reach its `k`-th head. -/
theorem Descending_iff_running_min (integers : Buffer) (n : Nat) (_hn : n ≤ 39) :
    (∃ b, Descending integers n = some b) ∧
    (Descending integers n = some true ↔
      ∀ i, 1 ≤ i → i < n → integers i ≤ integers (i - 1)) ∧
    ((∀ i, 1 ≤ i → i < n → integers i ≤ integers (i - 1)) ↔
      ∀ i < n, integers i ≤ runningMin integers i) ∧
    (∀ i, (∀ j < i + 1, runningMin integers (i + 1) ≤ integers j) ∧
      ∃ j < i + 1, runningMin integers (i + 1) = integers j) ∧
    (∀ k i current_min,
      stateAfter (descendingStep integers n) k (0, integers 0) = some (i, current_min) →
      i = k ∧ current_min = runningMin integers i) ∧
    (∀ k ≤ n, (∀ i, 1 ≤ i → i < k → integers i ≤ integers (i - 1)) →
      stateAfter (descendingStep integers n) k (0, integers 0) =
        some (k, runningMin integers k)) := by
  have hflip : ∀ m, (∀ i, 1 ≤ i → i < m → integers i ≤ integers (i - 1)) ↔
      NonIncreasing integers m :=
    fun m => ⟨fun h i hi h1 => h i h1 hi, fun h i h1 hi => h i hi h1⟩
  refine ⟨⟨_, Descending_eq integers n⟩, ?_, ?_, runningMin_spec integers, ?_, ?_⟩
  · rw [hflip]; exact Descending_true_iff integers n
  · rw [hflip]; exact nonIncreasing_iff_le_runningMin integers n
  · intro k i cm h
    obtain ⟨h1, h2, _, h3⟩ := stateAfter_descending_inv integers n k 0 (integers 0) i cm h
    have hik : i = k := by omega
    subst hik
    have hmono : NonIncreasing integers i := fun j hj hj1 => h3 j (by omega) (by omega)
    refine ⟨rfl, ?_⟩
    rw [h2, runningMin_of_nonIncreasing integers i hmono]
    by_cases h0 : i = 0
    · subst h0; rfl
    · simp [h0]
  · intro k hk hmono
    have hmono' : NonIncreasing integers k := (hflip k).mp hmono
    rw [stateAfter_descending integers n k 0 (integers 0) (by omega) (fun _ => le_refl _)
      (fun j h1 h2 => hmono j (by omega) (by omega)),
      runningMin_of_nonIncreasing integers k hmono']
    by_cases h0 : k = 0
    · subst h0; rfl
    · simp [h0]

/-- Witness for C8: the buffer holding `9 7 7 2` with `n = 4`; after three passes the loop
is at `i = 3` with `current_min = 7`, the least of `9 7 7`. -/
theorem Descending_iff_running_min_witness :
    Descending (cells [9, 7, 7, 2]) 4 = some true ∧
    stateAfter (descendingStep (cells [9, 7, 7, 2]) 4) 3 (0, cells [9, 7, 7, 2] 0) =
      some (3, 7) ∧
    (3 = 3 ∧ (7 : Int) = runningMin (cells [9, 7, 7, 2]) 3) :=
  ⟨(Descending_iff_running_min (cells [9, 7, 7, 2]) 4 (by decide)).2.1.mpr (by decide),
   by decide,
   (Descending_iff_running_min (cells [9, 7, 7, 2]) 4 (by decide)).2.2.2.2.1 3 3 7
      (by decide)⟩

/-- Claim C9. For every buffer and every `n ≤ 39`, `Ascending` returns on the buffer what
`Descending` returns on the buffer with its first `n` cells reversed, and it returns true
exactly when `integers[i] ≥ integers[i-1]` for every `i` in `1..n-1`. -/
theorem Ascending_mirrors_Descending (integers : Buffer) (n : Nat) (_hn : n ≤ 39) :
    (∃ b, Ascending integers n = some b) ∧
    Ascending integers n = Descending (reverseFirst integers n) n ∧
    (Ascending integers n = some true ↔
      Descending (reverseFirst integers n) n = some true) ∧
    (Ascending integers n = some true ↔
      ∀ i, 1 ≤ i → i < n → integers i ≥ integers (i - 1)) := by
  have heq : Ascending integers n = Descending (reverseFirst integers n) n := by
    rw [Ascending_eq, Descending_eq]
    exact congrArg some (decide_eq_decide.mpr (nonDecreasing_iff_reverse integers n))
  refine ⟨⟨_, Ascending_eq integers n⟩, heq, by rw [heq], ?_⟩
  rw [Ascending_true_iff]
  exact ⟨fun h i h1 hi => h i hi h1, fun h i hi h1 => h i h1 hi⟩

/-- Witness for C9: the buffer holding `1 4 4 6` with `n = 4`. -/
theorem Ascending_mirrors_Descending_witness :
    Ascending (cells [1, 4, 4, 6]) 4 = some true ∧
    Descending (reverseFirst (cells [1, 4, 4, 6]) 4) 4 = some true :=
  ⟨(Ascending_mirrors_Descending (cells [1, 4, 4, 6]) 4 (by decide)).2.2.2.mpr (by decide),
   (Ascending_mirrors_Descending (cells [1, 4, 4, 6]) 4 (by decide)).2.2.1.mp (by decide)⟩

/-- Claim C10, evaluated at the full input of forty sevens: whatever the array held before,
the read phase reads all forty values and ends with `maxIteration = 39`, not 40. -/
theorem readPhase_fortySevens (stack : Buffer) :
    fortySevens.length = 40 ∧ -1 ∉ fortySevens ∧
    ∃ s, readPhase fortySevens stack = some s ∧ s.cin = [] ∧ s.maxIteration = 39 ∧
      s.maxIteration ≠ 40 := by
  refine ⟨by decide, by decide, ?_⟩
  obtain ⟨s, h1, h2, h3, _⟩ := readPhase_full fortySevens [] stack (by decide) (by decide)
  rw [List.append_nil] at h1
  exact ⟨s, h1, h3, h2, by omega⟩

/-! ## Memory accesses: proofs -/

theorem loopTrace_mem {σ ρ ε : Type} (step : σ → Step σ ρ) (events : σ → List ε)
    (P : ε → Prop) (h : ∀ s, ∀ e ∈ events s, P e) :
    ∀ (fuel : Nat) (s : σ), ∀ e ∈ loopTrace step events fuel s, P e := by
  intro fuel
  induction fuel with
  | zero => intro s e he; simp [loopTrace] at he
  | succ fuel ih =>
    intro s e he
    simp only [loopTrace, List.mem_append] at he
    rcases he with he | he
    · exact h s e he
    · cases hs : step s with
      | next s' => rw [hs] at he; exact ih s' e he
      | leave r => rw [hs] at he; simp at he

theorem DescendingLoopTrace_mem (integers : Buffer) (n : Nat) :
    ∀ e ∈ DescendingLoopTrace integers n,
      e = Access.getMax ∨ ∃ j, e = Access.read j ∧ j < n := by
  apply loopTrace_mem
  intro p e he
  simp only [descendingEvents, List.mem_cons] at he
  rcases he with he | he
  · exact Or.inl he
  · by_cases hn : p.1 < n
    · right
      refine ⟨p.1, ?_, hn⟩
      by_cases hc : integers p.1 > p.2 <;> simp [hn, hc] at he <;> exact he
    · simp [hn] at he

theorem AscendingLoopTrace_mem (integers : Buffer) (n : Nat) :
    ∀ e ∈ AscendingLoopTrace integers n,
      e = Access.getMax ∨ ∃ j, e = Access.read j ∧ j < n := by
  apply loopTrace_mem
  intro p e he
  simp only [ascendingEvents, List.mem_cons] at he
  rcases he with he | he
  · exact Or.inl he
  · by_cases hn : p.1 < n
    · right
      refine ⟨p.1, ?_, hn⟩
      by_cases hc : integers p.1 < p.2 <;> simp [hn, hc] at he <;> exact he
    · simp [hn] at he

theorem SameOrderTrace_mem (integers : Buffer) (n : Nat) :
    ∀ e ∈ SameOrderTrace integers n,
      e = Access.getMax ∨ ∃ j, e = Access.read j ∧ j < n := by
  apply loopTrace_mem
  intro i e he
  simp only [sameOrderEvents, List.mem_cons] at he
  rcases he with he | he
  · exact Or.inl he
  · by_cases hn : i < n
    · simp only [hn, if_true, List.mem_cons, List.mem_singleton, List.not_mem_nil,
        or_false] at he
      rcases he with he | he | he
      · exact Or.inr ⟨i, he, hn⟩
      · exact Or.inl he
      · exact Or.inr ⟨n - (1 + i), he, by omega⟩
    · simp [hn] at he

theorem readEvents_cons (i : Nat) (s : State) (v : Int) (rest : List Int) (hi : i < 40)
    (hc : s.cin = v :: rest) :
    readEvents (i, s) = [Access.write i, Access.setMax, Access.read i] := by
  simp [readEvents, hc, hi]

theorem loopTrace_read_sentinel (rest : List Int) :
    ∀ (vals : List Int) (i : Nat) (s : State) (fuel : Nat),
      s.cin = vals ++ -1 :: rest → -1 ∉ vals → i + vals.length < 40 → vals.length < fuel →
      loopTrace readStep readEvents fuel (i, s) = readPasses i (vals.length + 1) := by
  intro vals
  induction vals with
  | nil =>
    intro i s fuel hc _ hi hf
    obtain ⟨f, rfl⟩ : ∃ f, fuel = f + 1 := ⟨fuel - 1, by omega⟩
    have hstep := readStep_cons i s (-1) rest (by omega) (by simpa using hc)
    simp only [if_true] at hstep
    simp [loopTrace, hstep, readEvents_cons i s (-1) rest (by omega) (by simpa using hc),
      readPasses]
  | cons v vs ih =>
    intro i s fuel hc hmem hi hf
    obtain ⟨f, rfl⟩ : ∃ f, fuel = f + 1 := ⟨fuel - 1, by omega⟩
    simp only [List.length_cons] at hi hf
    have hv : v ≠ -1 := fun h => hmem (by simp [h])
    have hvs : -1 ∉ vs := fun h => hmem (List.mem_cons_of_mem _ h)
    have hstep := readStep_cons i s v (vs ++ -1 :: rest) (by omega) (by simpa using hc)
    simp only [hv, if_false] at hstep
    have hev := readEvents_cons i s v (vs ++ -1 :: rest) (by omega) (by simpa using hc)
    simp only [loopTrace, hstep, hev, List.length_cons]
    rw [ih (i + 1) ⟨s.integers.write i v, i, vs ++ -1 :: rest⟩ f rfl hvs (by omega) (by omega)]
    rfl

theorem loopTrace_read_full (rest : List Int) :
    ∀ (vals : List Int) (i : Nat) (s : State) (fuel : Nat),
      s.cin = vals ++ rest → -1 ∉ vals → i + vals.length = 40 → vals.length < fuel →
      loopTrace readStep readEvents fuel (i, s) = readPasses i vals.length := by
  intro vals
  induction vals with
  | nil =>
    intro i s fuel _ _ hi hf
    obtain ⟨f, rfl⟩ : ∃ f, fuel = f + 1 := ⟨fuel - 1, by omega⟩
    have hi40 : ¬ i < 40 := by simp at hi; omega
    have hstep : readStep (i, s) = Step.leave s := by simp [readStep, hi40]
    simp [loopTrace, hstep, readEvents, hi40, readPasses]
  | cons v vs ih =>
    intro i s fuel hc hmem hi hf
    obtain ⟨f, rfl⟩ : ∃ f, fuel = f + 1 := ⟨fuel - 1, by omega⟩
    simp only [List.length_cons] at hi hf
    have hv : v ≠ -1 := fun h => hmem (by simp [h])
    have hvs : -1 ∉ vs := fun h => hmem (List.mem_cons_of_mem _ h)
    have hstep := readStep_cons i s v (vs ++ rest) (by omega) (by simpa using hc)
    simp only [hv, if_false] at hstep
    have hev := readEvents_cons i s v (vs ++ rest) (by omega) (by simpa using hc)
    simp only [loopTrace, hstep, hev, List.length_cons]
    rw [ih (i + 1) ⟨s.integers.write i v, i, vs ++ rest⟩ f rfl hvs (by omega) (by omega)]
    rfl

theorem readTrace_sentinel (vals rest : List Int) (stack : Buffer) (hmem : -1 ∉ vals)
    (hlen : vals.length ≤ 39) :
    readTrace (vals ++ -1 :: rest) stack = readPasses 0 (vals.length + 1) :=
  loopTrace_read_sentinel rest vals 0 _ 41 rfl hmem (by omega) (by omega)

theorem readTrace_full (vals rest : List Int) (stack : Buffer) (hmem : -1 ∉ vals)
    (hlen : vals.length = 40) :
    readTrace (vals ++ rest) stack = readPasses 0 40 := by
  rw [← hlen]
  exact loopTrace_read_full rest vals 0 _ 41 rfl hmem (by omega) (by omega)

theorem write_mem_readPasses : ∀ (len i j : Nat), i ≤ j → j < i + len →
    Access.write j ∈ readPasses i len := by
  intro len
  induction len with
  | zero => intro i j h1 h2; omega
  | succ len ih =>
    intro i j h1 h2
    simp only [readPasses, List.mem_append, List.mem_cons]
    by_cases hj : j = i
    · subst hj; exact Or.inl (Or.inl rfl)
    · exact Or.inr (ih (i + 1) j (by omega) (by omega))

theorem setMax_mem_readPasses (i len : Nat) : Access.setMax ∈ readPasses i (len + 1) := by
  simp [readPasses]

theorem split_append {α : Type} {a b pre post : List α} {x : α}
    (h : a ++ b = pre ++ x :: post) :
    (∃ post', a = pre ++ x :: post' ∧ post = post' ++ b) ∨
    (∃ pre', b = pre' ++ x :: post ∧ pre = a ++ pre') := by
  rcases List.append_eq_append_iff.mp h with ⟨a', h1, h2⟩ | ⟨c', h1, h2⟩
  · exact Or.inr ⟨a', h2, h1⟩
  · cases c' with
    | nil =>
      simp only [List.nil_append] at h2
      exact Or.inr ⟨[], by simpa using h2.symm, by simpa using h1.symm⟩
    | cons y c'' =>
      simp only [List.cons_append, List.cons.injEq] at h2
      exact Or.inl ⟨c'', by rw [h1, h2.1], h2.2⟩

theorem ReadsWritten_append {a b : List Access} (ha : ReadsWritten a)
    (hb : ∀ pre j post, b = pre ++ Access.read j :: post →
      j ≤ 39 ∧ (Access.write j ∈ a ∨ Access.write j ∈ pre)) :
    ReadsWritten (a ++ b) := by
  intro pre j post h
  rcases split_append h with ⟨post', h1, _⟩ | ⟨pre', h1, h2⟩
  · exact ha pre j post' h1
  · obtain ⟨hj, hw⟩ := hb pre' j post h1
    refine ⟨hj, ?_⟩
    rw [h2]
    exact List.mem_append.mpr hw

theorem MaxSetFirst_append {a b : List Access} (ha : MaxSetFirst a)
    (hb : ∀ pre post, b = pre ++ Access.getMax :: post →
      Access.setMax ∈ a ∨ Access.setMax ∈ pre) :
    MaxSetFirst (a ++ b) := by
  intro pre post h
  rcases split_append h with ⟨post', h1, _⟩ | ⟨pre', h1, h2⟩
  · exact ha pre post' h1
  · rw [h2]
    exact List.mem_append.mpr (hb pre' post h1)

theorem ReadsWritten_readPasses : ∀ (len i : Nat) (a : List Access), i + len ≤ 40 →
    ReadsWritten a → ReadsWritten (a ++ readPasses i len) := by
  intro len
  induction len with
  | zero => intro i a _ ha; simpa [readPasses] using ha
  | succ len ih =>
    intro i a hi ha
    simp only [readPasses]
    rw [← List.append_assoc]
    refine ih (i + 1) _ (by omega) (ReadsWritten_append ha ?_)
    intro pre j post h
    rcases pre with _ | ⟨x, _ | ⟨y, _ | ⟨z, pre⟩⟩⟩ <;> simp at h
    obtain ⟨rfl, rfl, rfl, _⟩ := h
    exact ⟨by omega, Or.inr (by simp)⟩

theorem MaxSetFirst_readPasses : ∀ (len i : Nat) (a : List Access),
    MaxSetFirst a → MaxSetFirst (a ++ readPasses i len) := by
  intro len
  induction len with
  | zero => intro i a ha; simpa [readPasses] using ha
  | succ len ih =>
    intro i a ha
    simp only [readPasses]
    rw [← List.append_assoc]
    refine ih (i + 1) _ (MaxSetFirst_append ha ?_)
    intro pre post h
    rcases pre with _ | ⟨x, _ | ⟨y, _ | ⟨z, pre⟩⟩⟩ <;> simp at h

theorem ReadsWritten_nil : ReadsWritten [] := by
  intro pre j post h
  simp at h

theorem MaxSetFirst_nil : MaxSetFirst [] := by
  intro pre post h
  simp at h

theorem exists_first_sentinel : ∀ l : List Int, -1 ∈ l →
    ∃ vals rest, l = vals ++ -1 :: rest ∧ -1 ∉ vals := by
  intro l
  induction l with
  | nil => intro h; simp at h
  | cons v vs ih =>
    intro h
    by_cases hv : v = -1
    · exact ⟨[], vs, by simp [hv], by simp⟩
    · have hvs : -1 ∈ vs := by
        rcases List.mem_cons.mp h with h | h
        · exact absurd h.symm hv
        · exact h
      obtain ⟨vals, rest, h1, h2⟩ := ih hvs
      refine ⟨v :: vals, rest, by simp [h1], ?_⟩
      intro hm
      rcases List.mem_cons.mp hm with hm | hm
      · exact hv hm.symm
      · exact h2 hm

theorem Supplies_cases (cin : List Int) (h : Supplies cin) :
    (∃ vals rest, cin = vals ++ -1 :: rest ∧ -1 ∉ vals ∧ vals.length ≤ 39) ∨
    (∃ vals rest, cin = vals ++ rest ∧ -1 ∉ vals ∧ vals.length = 40) := by
  have hfull : ∀ l : List Int, 40 ≤ l.length → -1 ∉ l.take 40 →
      ∃ vals rest, l = vals ++ rest ∧ -1 ∉ vals ∧ vals.length = 40 :=
    fun l hl hm => ⟨l.take 40, l.drop 40, (List.take_append_drop 40 l).symm, hm,
      by simp [List.length_take]; omega⟩
  by_cases hm : -1 ∈ cin
  · obtain ⟨vals, rest, h1, h2⟩ := exists_first_sentinel cin hm
    by_cases hl : vals.length ≤ 39
    · exact Or.inl ⟨vals, rest, h1, h2, hl⟩
    · right
      refine hfull cin (by rw [h1]; simp; omega) ?_
      rw [h1, List.take_append_of_le_length (by omega)]
      exact fun hx => h2 (List.mem_of_mem_take hx)
  · rcases h with h | h
    · exact absurd h hm
    · exact Or.inr (hfull cin h fun hx => hm (List.mem_of_mem_take hx))

theorem readTrace_supplies (cin : List Int) (stack : Buffer) (h : Supplies cin) :
    ∃ s, readPhase cin stack = some s ∧ s.maxIteration ≤ 39 ∧
      readTrace cin stack = readPasses 0 (s.maxIteration + 1) := by
  rcases Supplies_cases cin h with ⟨vals, rest, rfl, hmem, hlen⟩ | ⟨vals, rest, rfl, hmem, hlen⟩
  · obtain ⟨s, hrun, hmax, _⟩ := readPhase_sentinel vals rest stack hmem hlen
    exact ⟨s, hrun, by omega, by rw [hmax]; exact readTrace_sentinel vals rest stack hmem hlen⟩
  · obtain ⟨s, hrun, hmax, _⟩ := readPhase_full vals rest stack hmem hlen
    exact ⟨s, hrun, by omega, by rw [hmax]; exact readTrace_full vals rest stack hmem hlen⟩

theorem written_before (n : Nat) (hn : n ≤ 39) (b : List Access)
    (hb : ∀ e ∈ b, e = Access.getMax ∨ ∃ j, e = Access.read j ∧ j ≤ n) :
    ReadsWritten (readPasses 0 (n + 1) ++ b) ∧ MaxSetFirst (readPasses 0 (n + 1) ++ b) := by
  have h1 : ReadsWritten (readPasses 0 (n + 1)) := by
    simpa using ReadsWritten_readPasses (n + 1) 0 [] (by omega) ReadsWritten_nil
  have h2 : MaxSetFirst (readPasses 0 (n + 1)) := by
    simpa using MaxSetFirst_readPasses (n + 1) 0 [] MaxSetFirst_nil
  refine ⟨ReadsWritten_append h1 ?_, MaxSetFirst_append h2 ?_⟩
  · intro pre j post h
    have hmem : Access.read j ∈ b := by rw [h]; simp
    rcases hb _ hmem with h0 | ⟨j', h0, hj⟩
    · cases h0
    · cases h0
      exact ⟨by omega, Or.inl (write_mem_readPasses (n + 1) 0 j (by omega) (by omega))⟩
  · intro pre post _
    exact Or.inl (setMax_mem_readPasses 0 n)

theorem DescendingTrace_mem (integers : Buffer) (n : Nat) :
    ∀ e ∈ DescendingTrace integers n,
      e = Access.getMax ∨ ∃ j, e = Access.read j ∧ j ≤ n := by
  intro e he
  rcases List.mem_cons.mp he with he | he
  · exact Or.inr ⟨0, he, by omega⟩
  · rcases DescendingLoopTrace_mem integers n e he with h | ⟨j, h, hj⟩
    · exact Or.inl h
    · exact Or.inr ⟨j, h, by omega⟩

theorem AscendingTrace_mem (integers : Buffer) (n : Nat) :
    ∀ e ∈ AscendingTrace integers n,
      e = Access.getMax ∨ ∃ j, e = Access.read j ∧ j ≤ n := by
  intro e he
  rcases List.mem_cons.mp he with he | he
  · exact Or.inr ⟨0, he, by omega⟩
  · rcases AscendingLoopTrace_mem integers n e he with h | ⟨j, h, hj⟩
    · exact Or.inl h
    · exact Or.inr ⟨j, h, by omega⟩

theorem SameOrderTrace_mem_le (integers : Buffer) (n : Nat) :
    ∀ e ∈ SameOrderTrace integers n,
      e = Access.getMax ∨ ∃ j, e = Access.read j ∧ j ≤ n := by
  intro e he
  rcases SameOrderTrace_mem integers n e he with h | ⟨j, h, hj⟩
  · exact Or.inl h
  · exact Or.inr ⟨j, h, by omega⟩

theorem classifyTrace_mem (s : State) :
    ∀ e ∈ classifyTrace s,
      e = Access.getMax ∨ ∃ j, e = Access.read j ∧ j ≤ s.maxIteration := by
  intro e he
  unfold classifyTrace at he
  rcases List.mem_append.mp he with he | he
  · exact DescendingTrace_mem _ _ e he
  · cases hd : Descending s.integers s.maxIteration with
    | none => rw [hd] at he; simp at he
    | some d =>
      cases d with
      | true => rw [hd] at he; simp at he
      | false =>
        rw [hd] at he
        rcases List.mem_append.mp he with he | he
        · exact AscendingTrace_mem _ _ e he
        · cases ha : Ascending s.integers s.maxIteration with
          | none => rw [ha] at he; simp at he
          | some a =>
            cases a with
            | true => rw [ha] at he; simp at he
            | false =>
              rw [ha] at he
              exact SameOrderTrace_mem_le _ _ e he

theorem main_eq_of_readPhase {cin : List Int} {stack : Buffer} {s : State}
    (h : readPhase cin stack = some s) :
    main cin stack = some (report (verdict s.integers s.maxIteration)) := by
  unfold main
  simp only [h, classify_eq]

theorem main_of_nonIncreasing {cin : List Int} {stack : Buffer} {s : State}
    (h : readPhase cin stack = some s) (hd : NonIncreasing s.integers s.maxIteration) :
    main cin stack = some (report descendingMsg) := by
  rw [main_eq_of_readPhase h]
  simp [verdict, hd]

theorem nonDecreasing_le (integers : Buffer) (n : Nat) (h : NonDecreasing integers n) :
    ∀ j, j < n → ∀ i, i ≤ j → integers i ≤ integers j := by
  intro j
  induction j with
  | zero =>
    intro _ i hi
    have : i = 0 := by omega
    subst this; exact le_refl _
  | succ j ih =>
    intro hj i hi
    by_cases hij : i = j + 1
    · subst hij; exact le_refl _
    · exact le_trans (ih (by omega) i (by omega)) (by simpa using h (j + 1) hj (by omega))

theorem constant_of_nonDecreasing_palindrome (integers : Buffer) (n : Nat)
    (ha : NonDecreasing integers n) (hp : Palindrome integers n) :
    ∀ i < n, ∀ j < n, integers i = integers j := by
  have h0 : ∀ i < n, integers i = integers 0 := by
    intro i hi
    have h1 := nonDecreasing_le integers n ha i hi 0 (by omega)
    have h2 := nonDecreasing_le integers n ha (n - 1) (by omega) i (by omega)
    have h3 := hp 0 (by omega)
    simp only [Nat.sub_zero] at h3
    rw [← h3] at h2
    exact le_antisymm h2 h1
  intro i hi j hj
  rw [h0 i hi, h0 j hj]

/-- Claim C11, refuted: there is no buffer and no value `n` of `maxIteration` for which a
call of `SameOrder` reads `integers[n]`. -/
theorem SameOrder_never_reads_bound :
    ¬ ∃ (integers : Buffer) (n : Nat), Access.read n ∈ SameOrderTrace integers n := by
  rintro ⟨integers, n, h⟩
  rcases SameOrderTrace_mem integers n _ h with h0 | ⟨j, h0, hj⟩
  · cases h0
  · cases h0; omega

/-- Claim C11, amended. `SameOrder` uses `maxIteration = n` as an upper-exclusive bound:
every cell it reads, at the loop index `i` or at the mirror index `n - (1 + i)`, has an
index below `n`; for `n > 0` it does read the last of them, `integers[n-1]`; and it never
reads `integers[n]`. -/
theorem SameOrder_reads_below_bound (integers : Buffer) (n : Nat) :
    (∀ j, Access.read j ∈ SameOrderTrace integers n → j < n) ∧
    (0 < n → Access.read (n - 1) ∈ SameOrderTrace integers n) ∧
    Access.read n ∉ SameOrderTrace integers n := by
  have hlt : ∀ j, Access.read j ∈ SameOrderTrace integers n → j < n := by
    intro j h
    rcases SameOrderTrace_mem integers n _ h with h0 | ⟨j', h0, hj⟩
    · cases h0
    · cases h0; exact hj
  refine ⟨hlt, fun hn => ?_, fun h => absurd (hlt n h) (by omega)⟩
  have e : n - (1 + 0) = n - 1 := by omega
  simp [SameOrderTrace, loopTrace, sameOrderEvents, hn, e]

/-- Witness for C11: the buffer holding `1 2 1` with `n = 3`; cell 2 is read, and `2 < 3`. -/
theorem SameOrder_reads_below_bound_witness :
    Access.read 2 ∈ SameOrderTrace (cells [1, 2, 1]) 3 ∧ 2 < 3 ∧
    Access.read (3 - 1) ∈ SameOrderTrace (cells [1, 2, 1]) 3 :=
  ⟨by decide, (SameOrder_reads_below_bound (cells [1, 2, 1]) 3).1 2 (by decide),
   (SameOrder_reads_below_bound (cells [1, 2, 1]) 3).2.1 (by decide)⟩

/-- Claim C14. When the input supplies every integer the read loop asks for, the read phase
ends with `maxIteration ≤ 39` and, in the trace of the whole run as in the trace of the read
phase followed by a call of any one of `Descending`, `Ascending`, `SameOrder`, every read of
a cell is of an index in `0..39` that was assigned earlier, and every read of `maxIteration`
comes after an assignment to it.  The loops of the three predicates read only indices below
`maxIteration`, the mirror index `maxIteration - (1 + i)` of `SameOrder` lies in
`0..maxIteration-1` for every loop index `i < maxIteration`, and cell 0, which `Descending`
and `Ascending` read unconditionally, is assigned by the read phase. -/
theorem predicate_reads_are_written (cin : List Int) (stack : Buffer) (h : Supplies cin) :
    ∃ s, readPhase cin stack = some s ∧ s.maxIteration ≤ 39 ∧
      ReadsWritten (mainTrace cin stack) ∧ MaxSetFirst (mainTrace cin stack) ∧
      (ReadsWritten (readTrace cin stack ++ DescendingTrace s.integers s.maxIteration) ∧
        MaxSetFirst (readTrace cin stack ++ DescendingTrace s.integers s.maxIteration)) ∧
      (ReadsWritten (readTrace cin stack ++ AscendingTrace s.integers s.maxIteration) ∧
        MaxSetFirst (readTrace cin stack ++ AscendingTrace s.integers s.maxIteration)) ∧
      (ReadsWritten (readTrace cin stack ++ SameOrderTrace s.integers s.maxIteration) ∧
        MaxSetFirst (readTrace cin stack ++ SameOrderTrace s.integers s.maxIteration)) ∧
      (∀ j, Access.read j ∈ DescendingLoopTrace s.integers s.maxIteration ∨
          Access.read j ∈ AscendingLoopTrace s.integers s.maxIteration ∨
          Access.read j ∈ SameOrderTrace s.integers s.maxIteration → j < s.maxIteration) ∧
      (∀ i : Nat, i < s.maxIteration →
        0 ≤ (s.maxIteration : Int) - (1 + i) ∧
        (s.maxIteration : Int) - (1 + i) ≤ (s.maxIteration : Int) - 1 ∧
        s.maxIteration - (1 + i) < s.maxIteration) ∧
      Access.write 0 ∈ readTrace cin stack ∧ Access.setMax ∈ readTrace cin stack := by
  obtain ⟨s, hrun, hmax, htrace⟩ := readTrace_supplies cin stack h
  have hmain : mainTrace cin stack = readTrace cin stack ++ classifyTrace s := by
    unfold mainTrace; rw [hrun]
  refine ⟨s, hrun, hmax, ?_, ?_, ?_, ?_, ?_, ?_, fun i hi => by omega, ?_, ?_⟩
  · rw [hmain, htrace]; exact (written_before _ hmax _ (classifyTrace_mem s)).1
  · rw [hmain, htrace]; exact (written_before _ hmax _ (classifyTrace_mem s)).2
  · rw [htrace]; exact written_before _ hmax _ (DescendingTrace_mem _ _)
  · rw [htrace]; exact written_before _ hmax _ (AscendingTrace_mem _ _)
  · rw [htrace]; exact written_before _ hmax _ (SameOrderTrace_mem_le _ _)
  · intro j hj
    rcases hj with hj | hj | hj
    · rcases DescendingLoopTrace_mem _ _ _ hj with h0 | ⟨j', h0, hlt⟩
      · cases h0
      · cases h0; exact hlt
    · rcases AscendingLoopTrace_mem _ _ _ hj with h0 | ⟨j', h0, hlt⟩
      · cases h0
      · cases h0; exact hlt
    · rcases SameOrderTrace_mem _ _ _ hj with h0 | ⟨j', h0, hlt⟩
      · cases h0
      · cases h0; exact hlt
  · rw [htrace]; exact write_mem_readPasses _ 0 0 (by omega) (by omega)
  · rw [htrace]; exact setMax_mem_readPasses 0 _

/-- Witness for C14: the input `5 3 -1`. -/
theorem predicate_reads_are_written_witness :
    Supplies [5, 3, -1] ∧
    ReadsWritten (mainTrace [5, 3, -1] (fun _ => 0)) ∧
    MaxSetFirst (mainTrace [5, 3, -1] (fun _ => 0)) := by
  have hs : Supplies [5, 3, -1] := Or.inl (by decide)
  obtain ⟨_, _, _, h1, h2, _⟩ := predicate_reads_are_written [5, 3, -1] (fun _ => 0) hs
  exact ⟨hs, h1, h2⟩

theorem no_read_of_39 (s : State) (hmax : s.maxIteration ≤ 39) :
    Access.read 39 ∉ DescendingTrace s.integers s.maxIteration ∧
    Access.read 39 ∉ AscendingTrace s.integers s.maxIteration ∧
    Access.read 39 ∉ SameOrderTrace s.integers s.maxIteration := by
  refine ⟨fun h => ?_, fun h => ?_, fun h => ?_⟩
  · rcases List.mem_cons.mp h with h | h
    · cases h
    · rcases DescendingLoopTrace_mem _ _ _ h with h0 | ⟨j, h0, hj⟩
      · cases h0
      · cases h0; omega
  · rcases List.mem_cons.mp h with h | h
    · cases h
    · rcases AscendingLoopTrace_mem _ _ _ h with h0 | ⟨j, h0, hj⟩
      · cases h0
      · cases h0; omega
  · rcases SameOrderTrace_mem _ _ _ h with h0 | ⟨j, h0, hj⟩
    · cases h0
    · cases h0; omega

theorem readPhase_forty_sentinel (vals rest : List Int) (x : Int) (stack : Buffer)
    (hlen : (vals ++ -1 :: rest).length = 39) (hmem : -1 ∉ vals) :
    ∃ s, readPhase ((vals ++ -1 :: rest) ++ [x]) stack = some s ∧
      s.maxIteration = vals.length ∧ s.cin = rest ++ [x] ∧
      main ((vals ++ -1 :: rest) ++ [x]) stack =
        some (report (verdict (cells (vals ++ -1 :: rest)) vals.length)) := by
  have hl : vals.length ≤ 38 := by simp at hlen; omega
  have hin : (vals ++ -1 :: rest) ++ [x] = vals ++ -1 :: (rest ++ [x]) := by simp
  obtain ⟨s, hrun, hmax, hcin, hvals, _⟩ :=
    readPhase_sentinel vals (rest ++ [x]) stack hmem (by omega)
  rw [← hin] at hrun
  refine ⟨s, hrun, hmax, hcin, ?_⟩
  rw [main_eq_of_readPhase hrun, hmax]
  refine congrArg (fun m => some (report m)) (verdict_congr _ _ _ fun i hi => ?_)
  rw [hvals i hi]
  simp only [cells]
  rw [List.getD_append _ _ _ _ hi]

theorem readPhase_forty_plain (common : List Int) (x : Int) (stack : Buffer)
    (hlen : common.length = 39) (hm : -1 ∉ common) :
    ∃ s, readPhase (common ++ [x]) stack = some s ∧ s.maxIteration = 39 ∧
      main (common ++ [x]) stack = some (report (verdict (cells common) 39)) := by
  by_cases hx : x = -1
  · subst hx
    obtain ⟨s, hrun, hmax, _, hvals, _⟩ :=
      readPhase_sentinel common [] stack hm (by omega)
    refine ⟨s, hrun, by omega, ?_⟩
    rw [main_eq_of_readPhase hrun, hmax, hlen]
    refine congrArg (fun m => some (report m)) (verdict_congr _ _ _ fun i hi => ?_)
    exact hvals i (by omega)
  · have hm' : -1 ∉ common ++ [x] := by
      simp only [List.mem_append, List.mem_singleton, not_or]
      exact ⟨hm, fun h => hx h.symm⟩
    obtain ⟨s, hrun, hmax, _, hvals⟩ :=
      readPhase_full (common ++ [x]) [] stack hm' (by simp [hlen])
    rw [List.append_nil] at hrun
    refine ⟨s, hrun, hmax, ?_⟩
    rw [main_eq_of_readPhase hrun, hmax]
    refine congrArg (fun m => some (report m)) (verdict_congr _ _ _ fun i hi => ?_)
    rw [hvals i (by omega)]
    simp only [cells]
    rw [List.getD_append _ _ _ _ (by omega)]

/-- Claim C15, refuted at two inputs of 40 values that agree at indices `0..38` and differ
at index 39: their first value is `-1`, so the read phase ends with `maxIteration = 0`, not
39, and leaves the other 39 values unread. -/
theorem early_sentinel_maxIteration_not_39 :
    sentinelFirstThenOne.length = 40 ∧ sentinelFirstThenTwo.length = 40 ∧
    sentinelFirstThenOne.take 39 = sentinelFirstThenTwo.take 39 ∧
    sentinelFirstThenOne.getD 39 0 ≠ sentinelFirstThenTwo.getD 39 0 ∧
    ∃ s, readPhase sentinelFirstThenOne (fun _ => 0) = some s ∧ s.maxIteration = 0 ∧
      s.maxIteration ≠ 39 ∧ s.cin.length = 39 := by
  refine ⟨by decide, by decide, by decide, by decide, ?_⟩
  obtain ⟨s, h1, h2, h3, _⟩ :=
    readPhase_sentinel [] (List.replicate 38 0 ++ [1]) (fun _ => 0) (by simp) (by simp)
  refine ⟨s, h1, h2, ?_, ?_⟩
  · rw [h2]; decide
  · rw [h3]; decide

/-- Claim C15, amended. Two inputs of 40 values that agree at indices `0..38` make `main`
print the same message whatever their fortieth values are (`-1` or not) and whatever the
array held before.  The read phase ends with the same `maxIteration` in both runs: 39 when
none of the first 39 values is `-1`, and otherwise the index of the first `-1`, below 39,
with the fortieth value left unread.  In both runs no predicate reads `integers[39]`. -/
theorem fortieth_value_never_matters (common : List Int) (x y : Int)
    (stack₁ stack₂ : Buffer) (hlen : common.length = 39) :
    main (common ++ [x]) stack₁ = main (common ++ [y]) stack₂ ∧
    ∃ s₁ s₂, readPhase (common ++ [x]) stack₁ = some s₁ ∧
      readPhase (common ++ [y]) stack₂ = some s₂ ∧
      s₁.maxIteration = s₂.maxIteration ∧
      (-1 ∉ common → s₁.maxIteration = 39 ∧ s₂.maxIteration = 39) ∧
      (-1 ∈ common → s₁.maxIteration < 39 ∧ (∃ rest, s₁.cin = rest ++ [x]) ∧
        ∃ rest, s₂.cin = rest ++ [y]) ∧
      (Access.read 39 ∉ DescendingTrace s₁.integers s₁.maxIteration ∧
        Access.read 39 ∉ AscendingTrace s₁.integers s₁.maxIteration ∧
        Access.read 39 ∉ SameOrderTrace s₁.integers s₁.maxIteration) ∧
      (Access.read 39 ∉ DescendingTrace s₂.integers s₂.maxIteration ∧
        Access.read 39 ∉ AscendingTrace s₂.integers s₂.maxIteration ∧
        Access.read 39 ∉ SameOrderTrace s₂.integers s₂.maxIteration) := by
  by_cases hm : -1 ∈ common
  · obtain ⟨vals, rest, rfl, hvals⟩ := exists_first_sentinel common hm
    have hl : vals.length ≤ 38 := by simp at hlen; omega
    obtain ⟨s₁, hr₁, hmax₁, hcin₁, hmain₁⟩ :=
      readPhase_forty_sentinel vals rest x stack₁ hlen hvals
    obtain ⟨s₂, hr₂, hmax₂, hcin₂, hmain₂⟩ :=
      readPhase_forty_sentinel vals rest y stack₂ hlen hvals
    exact ⟨by rw [hmain₁, hmain₂], s₁, s₂, hr₁, hr₂, by rw [hmax₁, hmax₂],
      fun h => absurd hm h, fun _ => ⟨by omega, ⟨rest, hcin₁⟩, ⟨rest, hcin₂⟩⟩,
      no_read_of_39 s₁ (by omega), no_read_of_39 s₂ (by omega)⟩
  · obtain ⟨s₁, hr₁, hmax₁, hmain₁⟩ := readPhase_forty_plain common x stack₁ hlen hm
    obtain ⟨s₂, hr₂, hmax₂, hmain₂⟩ := readPhase_forty_plain common y stack₂ hlen hm
    exact ⟨by rw [hmain₁, hmain₂], s₁, s₂, hr₁, hr₂, by rw [hmax₁, hmax₂],
      fun _ => ⟨hmax₁, hmax₂⟩, fun h => absurd h hm,
      no_read_of_39 s₁ (by omega), no_read_of_39 s₂ (by omega)⟩

/-- Witness for C15: thirty-nine sevens followed by `100` in one run and by `-1` in the
other, over different array contents. -/
theorem fortieth_value_never_matters_witness :
    (List.replicate 39 (7 : Int)).length = 39 ∧
    main (List.replicate 39 7 ++ [100]) (fun _ => 0) =
      main (List.replicate 39 7 ++ [-1]) (fun _ => 5) :=
  ⟨by decide,
   (fortieth_value_never_matters (List.replicate 39 7) 100 (-1) (fun _ => 0) (fun _ => 5)
      (by decide)).1⟩

theorem report_verdict_ascending (integers : Buffer) (n : Nat) :
    report (verdict integers n) = report ascendingMsg ↔
      ¬ NonIncreasing integers n ∧ NonDecreasing integers n := by
  unfold verdict
  by_cases hd : NonIncreasing integers n
  · simp only [hd, if_true, not_true_eq_false, false_and, iff_false]; decide
  · by_cases ha : NonDecreasing integers n
    · simp [hd, ha]
    · by_cases hp : Palindrome integers n
      · simp only [hd, ha, hp, if_true, if_false, not_false_eq_true, and_false, iff_false]
        decide
      · simp only [hd, ha, hp, if_false, not_false_eq_true, and_false, iff_false]
        decide

theorem report_verdict_sameOrder (integers : Buffer) (n : Nat) :
    report (verdict integers n) = report sameOrderMsg ↔
      Palindrome integers n ∧ ¬ NonIncreasing integers n ∧ ¬ NonDecreasing integers n := by
  unfold verdict
  by_cases hd : NonIncreasing integers n
  · simp only [hd, if_true, not_true_eq_false, false_and, and_false, iff_false]; decide
  · by_cases ha : NonDecreasing integers n
    · simp only [hd, ha, if_true, if_false, not_true_eq_false, and_false, iff_false]; decide
    · by_cases hp : Palindrome integers n
      · simp [hd, ha, hp]
      · simp only [hd, ha, hp, if_false, false_and, iff_false]
        decide

/-- Claim C16. For every buffer and every `n`, if `Ascending` and `SameOrder` both return
true then the first `n` cells are all equal and `Descending` returns true.  Hence, for every
input, if the evaluated cells `0..maxIteration-1` form a palindrome then `main` does not
print the ascending message, and `main` prints the same-order message exactly when the
evaluated cells are a palindrome that is neither non-increasing nor non-decreasing. -/
theorem ascending_palindrome_is_constant (integers : Buffer) (n : Nat) (cin : List Int)
    (stack : Buffer) :
    (Ascending integers n = some true → SameOrder integers n = some true →
      (∀ i < n, ∀ j < n, integers i = integers j) ∧ Descending integers n = some true) ∧
    ∃ s, readPhase cin stack = some s ∧
      (Palindrome s.integers s.maxIteration →
        main cin stack ≠ some (report ascendingMsg)) ∧
      (main cin stack = some (report sameOrderMsg) ↔
        Palindrome s.integers s.maxIteration ∧ ¬ NonIncreasing s.integers s.maxIteration ∧
          ¬ NonDecreasing s.integers s.maxIteration) := by
  have hconst : ∀ (b : Buffer) (m : Nat), NonDecreasing b m → Palindrome b m →
      NonIncreasing b m := fun b m ha hp i hi _ =>
    le_of_eq (constant_of_nonDecreasing_palindrome b m ha hp i hi (i - 1) (by omega))
  refine ⟨fun ha hp => ?_, ?_⟩
  · have ha' := (Ascending_true_iff integers n).mp ha
    have hp' := (SameOrder_true_iff integers n).mp hp
    exact ⟨constant_of_nonDecreasing_palindrome integers n ha' hp',
      (Descending_true_iff integers n).mpr (hconst integers n ha' hp')⟩
  · obtain ⟨s, hrun, _⟩ := readPhase_total cin stack
    refine ⟨s, hrun, fun hp hmain => ?_, ?_⟩
    · rw [main_eq_of_readPhase hrun] at hmain
      obtain ⟨hd, ha⟩ := (report_verdict_ascending _ _).mp (Option.some.inj hmain)
      exact hd (hconst _ _ ha hp)
    · rw [main_eq_of_readPhase hrun]
      exact ⟨fun h => (report_verdict_sameOrder _ _).mp (Option.some.inj h),
        fun h => congrArg some ((report_verdict_sameOrder _ _).mpr h)⟩

/-- Witness for C16: the buffer holding `3 3 3` with `n = 3`. -/
theorem ascending_palindrome_is_constant_witness :
    (∀ i < 3, ∀ j < 3, cells [3, 3, 3] i = cells [3, 3, 3] j) ∧
    Descending (cells [3, 3, 3]) 3 = some true :=
  (ascending_palindrome_is_constant (cells [3, 3, 3]) 3 [] (fun _ => 0)).1
    (by decide) (by decide)

/-- Claim C17. An input whose first value is `-1` is read with `maxIteration = 0`, and an
input whose second value is `-1` after a first value `v` other than `-1` is read with
`maxIteration = 1` and the single evaluated value `v`, whatever `v` is; in both cases
`Descending` returns true and `main` prints the descending message (also when both the
first and the second value are `-1`). -/
theorem sentinel_first_or_second_is_descending (v : Int) (rest : List Int) (stack : Buffer) :
    (∃ s, readPhase (-1 :: rest) stack = some s ∧ s.maxIteration = 0 ∧
      Descending s.integers s.maxIteration = some true ∧
      main (-1 :: rest) stack = some (report descendingMsg)) ∧
    (∃ s, readPhase (v :: -1 :: rest) stack = some s ∧
      (v ≠ -1 → s.maxIteration = 1 ∧ s.integers 0 = v) ∧
      Descending s.integers s.maxIteration = some true ∧
      main (v :: -1 :: rest) stack = some (report descendingMsg)) := by
  have hsmall : ∀ (b : Buffer) (m : Nat), m ≤ 1 → NonIncreasing b m :=
    fun b m hm i hi h1 => absurd hi (by omega)
  have hfirst : ∀ rest' : List Int, ∃ s, readPhase (-1 :: rest') stack = some s ∧
      s.maxIteration = 0 ∧ Descending s.integers s.maxIteration = some true ∧
      main (-1 :: rest') stack = some (report descendingMsg) := by
    intro rest'
    obtain ⟨s, hrun, hmax, _⟩ := readPhase_sentinel [] rest' stack (by simp) (by simp)
    simp only [List.nil_append, List.length_nil] at hrun hmax
    have hd := hsmall s.integers s.maxIteration (by omega)
    exact ⟨s, hrun, hmax, (Descending_true_iff _ _).mpr hd, main_of_nonIncreasing hrun hd⟩
  refine ⟨hfirst rest, ?_⟩
  by_cases hv : v = -1
  · subst hv
    obtain ⟨s, hrun, _, hd, hmain⟩ := hfirst (-1 :: rest)
    exact ⟨s, hrun, fun h => absurd rfl h, hd, hmain⟩
  · obtain ⟨s, hrun, hmax, _, hvals, _⟩ :=
      readPhase_sentinel [v] rest stack (by simpa using fun h => hv h.symm) (by simp)
    simp only [List.singleton_append, List.length_singleton] at hrun hmax
    have hd := hsmall s.integers s.maxIteration (by omega)
    refine ⟨s, hrun, fun _ => ⟨hmax, ?_⟩, (Descending_true_iff _ _).mpr hd,
      main_of_nonIncreasing hrun hd⟩
    simpa using hvals 0 (by simp)

/-- Witness for C17: the inputs `-1 4 4` and `2147483647 -1 4 4`. -/
theorem sentinel_first_or_second_is_descending_witness :
    main [-1, 4, 4] (fun _ => 0) = some (report descendingMsg) ∧
    main [2147483647, -1, 4, 4] (fun _ => 0) = some (report descendingMsg) ∧
    ∃ s, readPhase [2147483647, -1, 4, 4] (fun _ => 0) = some s ∧ s.maxIteration = 1 ∧
      s.integers 0 = 2147483647 := by
  obtain ⟨⟨_, _, _, _, h1⟩, s, h2, h3, _, h4⟩ :=
    sentinel_first_or_second_is_descending 2147483647 [4, 4] (fun _ => 0)
  exact ⟨h1, h4, s, h2, h3 (by decide)⟩

end ArrayInfo

namespace NotFibonacci

/-! ## Decimal rendering -/

theorem digitChar_isDigit (m : Nat) (h : m < 10) : (Nat.digitChar m).isDigit = true := by
  interval_cases m <;> rfl

theorem toDigitsCore_isDigit : ∀ (fuel n : Nat) (ds : List Char),
    (∀ c ∈ ds, c.isDigit = true) → ∀ c ∈ Nat.toDigitsCore 10 fuel n ds, c.isDigit = true := by
  intro fuel
  induction fuel with
  | zero => intro n ds h c hc; exact h c (by simpa [Nat.toDigitsCore] using hc)
  | succ fuel ih =>
    intro n ds h c hc
    have hcons : ∀ c ∈ Nat.digitChar (n % 10) :: ds, c.isDigit = true := by
      intro c hc
      rcases List.mem_cons.mp hc with hc | hc
      · rw [hc]; exact digitChar_isDigit _ (Nat.mod_lt _ (by decide))
      · exact h c hc
    simp only [Nat.toDigitsCore] at hc
    by_cases h0 : n / 10 = 0
    · rw [if_pos h0] at hc; exact hcons c hc
    · rw [if_neg h0] at hc; exact ih _ _ hcons c hc

theorem toString_nat_chars (m : Nat) : ∀ c ∈ (toString m).toList, c.isDigit = true := by
  intro c hc
  exact toDigitsCore_isDigit (m + 1) m [] (fun c hc => by simp at hc) c hc

theorem toString_int_chars (n : Int) :
    ∀ c ∈ (toString n).toList, c.isDigit = true ∨ c = '-' := by
  intro c hc
  cases n with
  | ofNat m => exact Or.inl (toString_nat_chars m c hc)
  | negSucc m =>
    have : toString (Int.negSucc m) = "-" ++ toString (m + 1) := rfl
    rw [this] at hc
    simp only [String.toList, String.data_append] at hc
    rcases List.mem_append.mp hc with hc | hc
    · right; simpa using hc
    · exact Or.inl (toString_nat_chars (m + 1) c hc)

theorem intercalate_go_chars (sep : String) : ∀ (l : List String) (acc : String) (c : Char),
    c ∈ (String.intercalate.go acc sep l).toList →
      c ∈ acc.toList ∨ c ∈ sep.toList ∨ ∃ x ∈ l, c ∈ x.toList := by
  intro l
  induction l with
  | nil => intro acc c hc; exact Or.inl (by simpa [String.intercalate.go] using hc)
  | cons x xs ih =>
    intro acc c hc
    simp only [String.intercalate.go] at hc
    rcases ih _ c hc with h | h | ⟨y, hy, h⟩
    · simp only [String.toList, String.data_append, List.mem_append] at h
      rcases h with (h | h) | h
      · exact Or.inl h
      · exact Or.inr (Or.inl h)
      · exact Or.inr (Or.inr ⟨x, List.mem_cons_self _ _, h⟩)
    · exact Or.inr (Or.inl h)
    · exact Or.inr (Or.inr ⟨y, List.mem_cons_of_mem _ hy, h⟩)

theorem intercalate_chars (sep : String) (l : List String) (c : Char)
    (hc : c ∈ (sep.intercalate l).toList) : c ∈ sep.toList ∨ ∃ x ∈ l, c ∈ x.toList := by
  cases l with
  | nil => simp [String.intercalate] at hc
  | cons x xs =>
    simp only [String.intercalate] at hc
    rcases intercalate_go_chars sep xs x c hc with h | h | ⟨y, hy, h⟩
    · exact Or.inr ⟨x, List.mem_cons_self _ _, h⟩
    · exact Or.inl h
    · exact Or.inr ⟨y, List.mem_cons_of_mem _ hy, h⟩

/-! ## The run of the printer -/

theorem mainWith_eq (add : Int → Int → Int) (a b : Int) (rest : List Int) (a₀ b₀ : Int) :
    mainWith add (a :: b :: rest) a₀ b₀ = some (runOf (sequence add a b)) :=
  rfl

theorem runOf_terms (t : Nat → Int) : (runOf t).terms = (List.range 10).map t :=
  rfl

theorem runOf_stdout (t : Nat → Int) :
    (runOf t).stdout = prompts ++ ", ".intercalate ((runOf t).terms.map toString) := by
  simp [Run.stdout, Run.terms, runOf, String.join, Item.render, prompts,
    String.intercalate, String.intercalate.go, String.append_assoc]

theorem stateAfter_loop (add : Int → Int → Int) (a b : Int) (rest : List Int) (a₀ b₀ : Int)
    (i : Nat) (hi : i ≤ 8) :
    ∃ s, ArrayInfo.stateAfter (loopStep add) i (0, start (a :: b :: rest) a₀ b₀) = some (i, s) ∧
      s.a = sequence add a b i ∧ s.b = sequence add a b (i + 1) := by
  interval_cases i <;> exact ⟨_, rfl, rfl, rfl⟩

/-! ## Wraparound -/

theorem wrap32_of_inRange (x : Int) (h1 : -2 ^ 31 ≤ x) (h2 : x ≤ 2 ^ 31 - 1) :
    wrap32 x = x := by
  unfold wrap32; omega

theorem wrap32_add (x y : Int) : wrap32 (wrap32 x + wrap32 y) = wrap32 (x + y) := by
  unfold wrap32; omega

theorem wrap32_idem (x : Int) : wrap32 (wrap32 x) = wrap32 x := by
  unfold wrap32; omega

theorem wrap32_congruent (x : Int) : (wrap32 x - x) % 2 ^ 32 = 0 := by
  unfold wrap32; omega

theorem wrap32_sequence (a b : Int) :
    ∀ k, wrap32 (sequence addInt32 a b k) = wrap32 (sequence addExact a b k) ∧
      wrap32 (sequence addInt32 a b (k + 1)) = wrap32 (sequence addExact a b (k + 1)) := by
  intro k
  induction k with
  | zero => exact ⟨rfl, rfl⟩
  | succ k ih =>
    refine ⟨ih.2, ?_⟩
    show wrap32 (wrap32 (sequence addInt32 a b k + sequence addInt32 a b (k + 1))) =
      wrap32 (sequence addExact a b k + sequence addExact a b (k + 1))
    rw [wrap32_idem, ← wrap32_add, ih.1, ih.2, wrap32_add]

theorem sequence_addInt32 (a b : Int) (k : Nat) :
    sequence addInt32 a b (k + 2) = wrap32 (sequence addExact a b (k + 2)) := by
  show wrap32 (sequence addInt32 a b k + sequence addInt32 a b (k + 1)) =
    wrap32 (sequence addExact a b k + sequence addExact a b (k + 1))
  rw [← wrap32_add, (wrap32_sequence a b k).1, (wrap32_sequence a b k).2, wrap32_add]

theorem sequence_addExact (a b : Int) :
    ∀ k, sequence addExact a b (k + 1) = F k * a + F (k + 1) * b ∧
      sequence addExact a b (k + 2) = F (k + 1) * a + F (k + 2) * b := by
  intro k
  induction k with
  | zero => simp [sequence, addExact, F]
  | succ k ih =>
    refine ⟨ih.2, ?_⟩
    show sequence addExact a b (k + 1) + sequence addExact a b (k + 2) = _
    rw [ih.1, ih.2]
    show _ = F (k + 2) * a + (F (k + 1) + F (k + 2)) * b
    show _ = (F k + F (k + 1)) * a + (F (k + 1) + F (k + 2)) * b
    ring

/-! ## The printer as a whole -/

/-- Claim C12. Over exact integers, for all seeds `a` and `b` the printer ends with exit
code 0 after printing exactly ten integers `t 0, ..., t 9` with `t 0 = a`, `t 1 = b` and
`t (k+2) = t k + t (k+1)` for `k = 0..7`; for `a = b = 1` they are
`1, 1, 2, 3, 5, 8, 13, 21, 34, 55`, and for `a = b = 0` they are ten zeros. -/
theorem prints_ten_additive_terms (a b : Int) (rest : List Int) (a₀ b₀ : Int) :
    (∃ (run : Run) (t : Nat → Int), mainWith addExact (a :: b :: rest) a₀ b₀ = some run ∧ run.exitCode = 0 ∧
      run.terms = [t 0, t 1, t 2, t 3, t 4, t 5, t 6, t 7, t 8, t 9] ∧
      t 0 = a ∧ t 1 = b ∧ ∀ k, k ≤ 7 → t (k + 2) = t k + t (k + 1)) ∧
    (mainWith addExact (1 :: 1 :: rest) a₀ b₀).map Run.terms =
      some [1, 1, 2, 3, 5, 8, 13, 21, 34, 55] ∧
    (mainWith addExact (0 :: 0 :: rest) a₀ b₀).map Run.terms =
      some [0, 0, 0, 0, 0, 0, 0, 0, 0, 0] :=
  ⟨⟨runOf (sequence addExact a b), sequence addExact a b, mainWith_eq _ a b rest a₀ b₀, rfl,
    rfl, rfl, rfl, fun _ _ => rfl⟩, rfl, rfl⟩

/-- Witness for C12: the seeds `2` and `5` give `2, 5, 7, 12, 19, 31, 50, 81, 131, 212`. -/
theorem prints_ten_additive_terms_witness :
    (mainWith addExact [2, 5] 0 0).map Run.terms =
      some [2, 5, 7, 12, 19, 31, 50, 81, 131, 212] := by
  obtain ⟨⟨run, t, h1, _, h2, h3, h4, h5⟩, _⟩ := prints_ten_additive_terms 2 5 [] 0 0
  have e2 := h5 0 (by decide)
  have e3 := h5 1 (by decide)
  have e4 := h5 2 (by decide)
  have e5 := h5 3 (by decide)
  have e6 := h5 4 (by decide)
  have e7 := h5 5 (by decide)
  have e8 := h5 6 (by decide)
  have e9 := h5 7 (by decide)
  simp only [Nat.reduceAdd] at e2 e3 e4 e5 e6 e7 e8 e9
  rw [h1, Option.map_some', h2, e9, e8, e7, e6, e5, e4, e3, e2, h3, h4]
  rfl

/-- Claim C13. For all seeds `a` and `b`, and whichever way `+` treats overflow, what the
printer writes after its prompts is exactly the decimal renderings of the ten printed
integers with `", "` between them, nine separators in all, with nothing in front and nothing
(no separator, no newline) behind; it consists of digits, minus signs, commas and blanks
only, so it holds no newline.  For `a = b = 1` it is `1, 1, 2, 3, 5, 8, 13, 21, 34, 55`. -/
theorem prints_comma_separated_sequence (add : Int → Int → Int) (a b : Int)
    (rest : List Int) (a₀ b₀ : Int) :
    (∃ (run : Run) (t : Nat → Int), mainWith add (a :: b :: rest) a₀ b₀ = some run ∧
      run.terms = [t 0, t 1, t 2, t 3, t 4, t 5, t 6, t 7, t 8, t 9] ∧
      run.stdout = prompts ++ ", ".intercalate (run.terms.map toString) ∧
      run.stdout = prompts ++ (toString (t 0) ++ ", " ++ toString (t 1) ++ ", " ++
        toString (t 2) ++ ", " ++ toString (t 3) ++ ", " ++ toString (t 4) ++ ", " ++
        toString (t 5) ++ ", " ++ toString (t 6) ++ ", " ++ toString (t 7) ++ ", " ++
        toString (t 8) ++ ", " ++ toString (t 9)) ∧
      (∀ c ∈ (", ".intercalate (run.terms.map toString)).toList,
        c.isDigit = true ∨ c = '-' ∨ c = ',' ∨ c = ' ') ∧
      '\n' ∉ (", ".intercalate (run.terms.map toString)).toList) ∧
    (mainWith addExact (1 :: 1 :: rest) a₀ b₀).map Run.stdout =
      some (prompts ++ "1, 1, 2, 3, 5, 8, 13, 21, 34, 55") := by
  have hchars : ∀ c ∈ (", ".intercalate ((runOf (sequence add a b)).terms.map toString)).toList,
      c.isDigit = true ∨ c = '-' ∨ c = ',' ∨ c = ' ' := by
    intro c hc
    rcases intercalate_chars _ _ c hc with h | ⟨x, hx, h⟩
    · have : c = ',' ∨ c = ' ' := by simpa using h
      exact Or.inr (Or.inr this)
    · obtain ⟨n, _, rfl⟩ := List.mem_map.mp hx
      rcases toString_int_chars n c h with h | h
      · exact Or.inl h
      · exact Or.inr (Or.inl h)
  refine ⟨⟨runOf (sequence add a b), sequence add a b, mainWith_eq add a b rest a₀ b₀, rfl,
    runOf_stdout _, ?_, hchars, fun h => ?_⟩, by rw [mainWith_eq]; decide⟩
  · simp [Run.stdout, runOf, String.join, Item.render, prompts, String.append_assoc]
  · rcases hchars _ h with h | h | h | h
    · exact absurd h (by decide)
    · exact absurd h (by decide)
    · exact absurd h (by decide)
    · exact absurd h (by decide)

/-- Witness for C13: the seeds `-3` and `4`. -/
theorem prints_comma_separated_sequence_witness :
    (mainWith addExact [-3, 4] 0 0).map Run.stdout =
      some (prompts ++ "-3, 4, 1, 5, 6, 11, 17, 28, 45, 73") ∧
    '\n' ∉ "-3, 4, 1, 5, 6, 11, 17, 28, 45, 73".toList := by
  obtain ⟨⟨run, t, h1, h2, h3, _, _, h4⟩, _⟩ :=
    prints_comma_separated_sequence addExact (-3) 4 [] 0 0
  have e : mainWith addExact [-3, 4] 0 0 = some (runOf (sequence addExact (-3) 4)) := rfl
  rw [e] at h1
  cases h1
  exact ⟨by rw [e, Option.map_some', h3]; decide, h4⟩

/-- Claim C18. For all integers `a` and `b` and every `k` in `2..9`, the `k`-th printed
integer (counted from 0) is `F(k-1)*a + F(k)*b` over exact integers, and with 32-bit
wraparound it is the 32-bit value congruent to `F(k-1)*a + F(k)*b` modulo `2^32`, where
`F(0) = 0`, `F(1) = 1`, `F(n+2) = F(n) + F(n+1)`; the tenth and last printed integer is
`21*a + 34*b`, respectively the 32-bit value congruent to it. -/
theorem terms_are_fibonacci_combinations (a b : Int) (rest : List Int) (a₀ b₀ : Int)
    (k : Nat) (h2 : 2 ≤ k) (h9 : k ≤ 9) :
    ∃ exact wrapped : Run,
      mainWith addExact (a :: b :: rest) a₀ b₀ = some exact ∧
      mainWith addInt32 (a :: b :: rest) a₀ b₀ = some wrapped ∧
      exact.terms.length = 10 ∧ wrapped.terms.length = 10 ∧
      exact.terms.getD k 0 = F (k - 1) * a + F k * b ∧
      wrapped.terms.getD k 0 = wrap32 (F (k - 1) * a + F k * b) ∧
      (wrapped.terms.getD k 0 - (F (k - 1) * a + F k * b)) % 2 ^ 32 = 0 ∧
      exact.terms.getD 9 0 = 21 * a + 34 * b ∧
      wrapped.terms.getD 9 0 = wrap32 (21 * a + 34 * b) ∧
      F 0 = 0 ∧ F 1 = 1 ∧ ∀ n, F (n + 2) = F n + F (n + 1) := by
  obtain ⟨j, rfl⟩ : ∃ j, k = j + 2 := ⟨k - 2, by omega⟩
  have hj : j ≤ 7 := by omega
  have hE : sequence addExact a b (j + 2) = F (j + 1) * a + F (j + 2) * b :=
    (sequence_addExact a b j).2
  have hE9 : sequence addExact a b 9 = 21 * a + 34 * b := by
    rw [(sequence_addExact a b 7).2]; simp [F]
  have hgetE : (runOf (sequence addExact a b)).terms.getD (j + 2) 0 =
      sequence addExact a b (j + 2) := by
    interval_cases j <;> rfl
  have hgetW : (runOf (sequence addInt32 a b)).terms.getD (j + 2) 0 =
      sequence addInt32 a b (j + 2) := by
    interval_cases j <;> rfl
  have hW : (runOf (sequence addInt32 a b)).terms.getD (j + 2) 0 =
      wrap32 (F (j + 1) * a + F (j + 2) * b) := by
    rw [hgetW, sequence_addInt32, hE]
  refine ⟨runOf (sequence addExact a b), runOf (sequence addInt32 a b),
    mainWith_eq _ a b rest a₀ b₀, mainWith_eq _ a b rest a₀ b₀, rfl, rfl, ?_, hW, ?_, ?_, ?_,
    rfl, rfl, fun _ => rfl⟩
  · rw [hgetE]; exact hE
  · rw [hW]; exact wrap32_congruent _
  · exact hE9
  · show sequence addInt32 a b 9 = _
    rw [sequence_addInt32, hE9]

/-- Witness for C18: the seeds `3` and `-2` at `k = 5`, where `F(4) = 3` and `F(5) = 5`. -/
theorem terms_are_fibonacci_combinations_witness :
    ∃ exact : Run, mainWith addExact [3, -2] 0 0 = some exact ∧
      exact.terms.getD 5 0 = F 4 * 3 + F 5 * (-2) ∧ exact.terms.getD 5 0 = -1 := by
  obtain ⟨exact, _, h1, _, _, _, h2, _⟩ :=
    terms_are_fibonacci_combinations 3 (-2) [] 0 0 5 (by decide) (by decide)
  exact ⟨exact, h1, h2, by rw [h2]; decide⟩

/-- Claim C19. For all 32-bit seeds `a` and `b` with `21*|a| + 34*|b| ≤ 2^31 - 1`, each of
the eight additions `current = a + b` of the run with wraparound has operands whose exact
sum lies in the 32-bit signed range, so that it does not wrap, and the run with wraparound
is the run over exact integers: the same ten integers are printed. -/
theorem small_seeds_never_overflow (a b : Int) (rest : List Int) (a₀ b₀ : Int)
    (ha : -2 ^ 31 ≤ a ∧ a ≤ 2 ^ 31 - 1) (hb : -2 ^ 31 ≤ b ∧ b ≤ 2 ^ 31 - 1)
    (h : 21 * |a| + 34 * |b| ≤ 2 ^ 31 - 1) :
    (∀ i, i ≤ 7 → ∃ s, ArrayInfo.stateAfter (loopStep addInt32) i
        (0, start (a :: b :: rest) a₀ b₀) = some (i, s) ∧
      -2 ^ 31 ≤ s.a + s.b ∧ s.a + s.b ≤ 2 ^ 31 - 1 ∧ addInt32 s.a s.b = s.a + s.b) ∧
    ∃ run, mainWith addInt32 (a :: b :: rest) a₀ b₀ = some run ∧
      mainWith addExact (a :: b :: rest) a₀ b₀ = some run ∧ run.terms.length = 10 := by
  have hrange : ∀ k, k ≤ 9 → -2 ^ 31 ≤ sequence addExact a b k ∧
      sequence addExact a b k ≤ 2 ^ 31 - 1 := by
    intro k hk
    rcases abs_cases a with ⟨ea, _⟩ | ⟨ea, _⟩ <;> rcases abs_cases b with ⟨eb, _⟩ | ⟨eb, _⟩ <;>
      rw [ea, eb] at h <;> interval_cases k <;>
      simp only [sequence, addExact] <;> omega
  have heq : ∀ k, k ≤ 9 → sequence addInt32 a b k = sequence addExact a b k := by
    intro k hk
    rcases Nat.lt_or_ge k 2 with h2 | h2
    · interval_cases k <;> rfl
    · obtain ⟨j, rfl⟩ : ∃ j, k = j + 2 := ⟨k - 2, by omega⟩
      rw [sequence_addInt32]
      exact wrap32_of_inRange _ (hrange _ hk).1 (hrange _ hk).2
  refine ⟨fun i hi => ?_, runOf (sequence addInt32 a b), mainWith_eq _ a b rest a₀ b₀, ?_, rfl⟩
  · obtain ⟨s, hs, hsa, hsb⟩ := stateAfter_loop addInt32 a b rest a₀ b₀ i (by omega)
    have hsum : s.a + s.b = sequence addExact a b (i + 2) := by
      rw [hsa, hsb, heq i (by omega), heq (i + 1) (by omega)]; rfl
    have hr := hrange (i + 2) (by omega)
    refine ⟨s, hs, by rw [hsum]; exact hr.1, by rw [hsum]; exact hr.2, ?_⟩
    show wrap32 (s.a + s.b) = s.a + s.b
    rw [hsum]; exact wrap32_of_inRange _ hr.1 hr.2
  · rw [mainWith_eq]
    have hfun : runOf (sequence addExact a b) = runOf (sequence addInt32 a b) := by
      simp only [runOf]
      rw [heq 0 (by omega), heq 1 (by omega), heq 2 (by omega), heq 3 (by omega),
        heq 4 (by omega), heq 5 (by omega), heq 6 (by omega), heq 7 (by omega),
        heq 8 (by omega), heq 9 (by omega)]
    rw [hfun]

/-- Witness for C19: the seeds `39045157` and `-39045157`, for which
`21*|a| + 34*|b| = 2147483635`. -/
theorem small_seeds_never_overflow_witness :
    ∃ run, mainWith addInt32 [39045157, -39045157] 0 0 = some run ∧
      mainWith addExact [39045157, -39045157] 0 0 = some run :=
  let ⟨run, h1, h2, _⟩ := (small_seeds_never_overflow 39045157 (-39045157) [] 0 0
    (by decide) (by decide) (by decide)).2
  ⟨run, h1, h2⟩

end NotFibonacci
